import Mathlib

/-!
Verification development for the keiba-mvp repository (TypeScript).

Strings are modelled as lists of Unicode code points (`Str := List Nat`);
all the text handled by the program lies in the Basic Multilingual Plane,
so JavaScript UTF-16 lengths and indices coincide with code-point counts.
JavaScript numbers are modelled as exact rationals (`ℚ`); every numeric
value the program manipulates comes from short decimal literals, far below
any double-precision rounding.  JavaScript regexes are transcribed with a
small backtracking combinator engine (`Rx`) that reproduces the standard
leftmost-match, alternative-preference and greedy/lazy quantifier
semantics used by the source patterns.
-/

/-- Model of a JavaScript string: its list of Unicode code points
(plain naturals). -/
abbrev Str := List Nat

/-- Code point of a character literal. -/
def cp (c : Char) : Nat := c.toNat

/-- Convert a Lean string literal to the model. -/
def str (s : String) : Str := s.data.map (fun c => c.toNat)

/-- JS whitespace (the code points relevant to this program's inputs):
space, tab, LF, VT, FF, CR, NBSP, ideographic space, BOM. -/
def isSpaceCp (c : Nat) : Bool :=
  c == 32 || c == 9 || c == 10 || c == 11 || c == 12 || c == 13 ||
  c == 0xA0 || c == 0x3000 || c == 0xFEFF

/-- ASCII digit. -/
def isDigitCp (c : Nat) : Bool := 48 ≤ c && c ≤ 57

/-- `String.prototype.trim`: strip whitespace from both ends. -/
def jsTrim (s : Str) : Str :=
  ((s.dropWhile isSpaceCp).reverse.dropWhile isSpaceCp).reverse

/-- Numeric value of a digit string (most significant first). -/
def digitsToNat (s : Str) : Nat :=
  s.foldl (fun acc c => acc * 10 + (c - 48)) 0

/-- Model of a JavaScript number as produced and consumed by this
program: an exact decimal fixed-point value `num / 10 ^ exp`.  Every
number the program handles is parsed from a short decimal literal or
computed by `+`, `*`, `min`, `max` and rounding on such values, all of
which are exact in double precision at these magnitudes, so the decimal
model is exact.  Comparisons are value comparisons (cross
multiplication), mirroring JS numeric comparison of values rather than
representations. -/
structure Dec where
  num : Int
  exp : Nat
deriving DecidableEq, Inhabited

namespace Dec

/-- Embed a natural number. -/
def ofNat (n : Nat) : Dec := ⟨n, 0⟩

/-- The rational value of a decimal. -/
def toRat (d : Dec) : ℚ := (d.num : ℚ) / (10 : ℚ) ^ d.exp

/-- Value order (JS `<=` on numbers). -/
def le (a b : Dec) : Prop := a.num * 10 ^ b.exp ≤ b.num * 10 ^ a.exp

/-- Strict value order (JS `<` on numbers). -/
def lt (a b : Dec) : Prop := a.num * 10 ^ b.exp < b.num * 10 ^ a.exp

/-- Value equality (JS `===` on numbers). -/
def veq (a b : Dec) : Prop := a.num * 10 ^ b.exp = b.num * 10 ^ a.exp

instance : DecidableRel le := fun x y =>
  Int.decLe (x.num * 10 ^ y.exp) (y.num * 10 ^ x.exp)

instance : DecidableRel lt := fun x y =>
  Int.decLt (x.num * 10 ^ y.exp) (y.num * 10 ^ x.exp)

instance : DecidableRel veq := fun x y =>
  Int.instDecidableEq (x.num * 10 ^ y.exp) (y.num * 10 ^ x.exp)

/-- Boolean value order. -/
def ble (a b : Dec) : Bool := decide (le a b)

/-- Boolean strict value order. -/
def blt (a b : Dec) : Bool := decide (lt a b)

/-- Boolean value equality. -/
def bveq (a b : Dec) : Bool := decide (veq a b)

/-- Exact addition. -/
def add (a b : Dec) : Dec := ⟨a.num * 10 ^ b.exp + b.num * 10 ^ a.exp, a.exp + b.exp⟩

/-- Exact multiplication. -/
def mul (a b : Dec) : Dec := ⟨a.num * b.num, a.exp + b.exp⟩

/-- JS `Math.max` (on the exact values). -/
def maxD (a b : Dec) : Dec := if ble a b then b else a

/-- JS `Math.min` (on the exact values). -/
def minD (a b : Dec) : Dec := if ble a b then a else b

/-- JS `Math.round`: floor of the value plus one half. -/
def roundHalf (d : Dec) : Int :=
  Int.ediv (2 * d.num + 10 ^ d.exp) (2 * 10 ^ d.exp)

end Dec

/-- Value of a decimal literal `ip[.fp]`. -/
def decVal (ip : Str) (fp : Option Str) : Dec :=
  match fp with
  | none => ⟨digitsToNat ip, 0⟩
  | some f => ⟨digitsToNat ip * 10 ^ f.length + digitsToNat f, f.length⟩

/-- Parse the decimal text captured by a `\d+(?:\.\d+)?` group. -/
def decOfStr (s : Str) : Dec :=
  let ip := s.takeWhile isDigitCp
  let rest := s.drop ip.length
  match rest with
  | [] => ⟨digitsToNat ip, 0⟩
  | _ :: f => decVal ip (some f)

namespace Rx

/-- A backtracking matcher: returns every way to match a prefix of the
input, in regex preference order (head = preferred). -/
def M (α : Type) : Type := Str → List (α × Str)

instance : Monad M where
  pure a := fun s => [(a, s)]
  bind m f := fun s => (m s).flatMap (fun p => f p.1 p.2)

/-- Alternation: left alternative preferred (regex `x|y`). -/
def alt (m₁ m₂ : M α) : M α := fun s => m₁ s ++ m₂ s

/-- Match one code point satisfying `p` (a character class). -/
def one (p : Nat → Bool) : M Nat := fun s =>
  match s with
  | [] => []
  | c :: r => if p c then [(c, r)] else []

/-- Match a literal string. -/
def lit (t : Str) : M Unit := fun s =>
  if t.isPrefixOf s then [((), s.drop t.length)] else []

/-- Greedy star over a character class (regex `p*`): longest match first.
All candidate splits are on the maximal run, so full backtracking over a
single class is represented exactly. -/
def starCh (p : Nat → Bool) : M Str := fun s =>
  let run := s.takeWhile p
  (List.range (run.length + 1)).map
    (fun i => (run.take (run.length - i), s.drop (run.length - i)))

/-- Greedy plus over a character class (regex `p+`). -/
def plusCh (p : Nat → Bool) : M Str := fun s =>
  (starCh p s).filter (fun pr => !pr.1.isEmpty)

/-- Lazy plus over a character class (regex `p+?`): shortest match first. -/
def lazyPlusCh (p : Nat → Bool) : M Str := fun s =>
  let run := s.takeWhile p
  (List.range run.length).map (fun i => (run.take (i + 1), s.drop (i + 1)))

/-- Greedy option (regex `x?`): matching preferred over skipping. -/
def opt (m : M α) : M (Option α) :=
  alt (fun s => (m s).map (fun p => (some p.1, p.2))) (pure none)

/-- End-of-input anchor (regex `$`). -/
def eos : M Unit := fun s => if s.isEmpty then [((), [])] else []

/-- One or two repetitions of a class (regex `p{1,2}`), greedy. -/
def oneTwo (p : Nat → Bool) : M Str :=
  alt (do let a ← one p; let b ← one p; pure [a, b])
      (do let a ← one p; pure [a])

/-- Anchored match at the start of the string (regex `^...`): the
preferred parse, if any. -/
def matchHere (m : M α) (s : Str) : Option α :=
  ((m s).head?).map Prod.fst

/-- Unanchored search (JS `String.prototype.match`): try each start
position left to right, taking the preferred parse at the first position
that matches at all. -/
def search (m : M α) : Str → Option α
  | [] => ((m []).head?).map Prod.fst
  | c :: t =>
    match ((m (c :: t)).head?) with
    | some p => some p.1
    | none => search m t

/-- Regex `\d+(?:\.\d+)?`, returning the matched text.  For this pattern
greedy runs never need to be shortened for the remainder to match (a
digit cannot also be the following delimiter), so maximal-run splits are
exhaustive. -/
def decNum : M Str := do
  let ip ← plusCh isDigitCp
  let fp ← opt (do let _ ← lit [cp '.']; plusCh isDigitCp)
  match fp with
  | none => pure ip
  | some f => pure (ip ++ [cp '.'] ++ f)

/-- Regex `\s*`. -/
def ws : M Unit := do let _ ← starCh isSpaceCp; pure ()

/-- Regex `\s+`. -/
def ws1 : M Unit := do let _ ← plusCh isSpaceCp; pure ()

end Rx

/-- JS `String.prototype.includes`: `jsIncludes hay needle`. -/
def jsIncludes (hay needle : Str) : Bool :=
  match hay with
  | [] => needle.isPrefixOf ([] : Str)
  | _ :: t => needle.isPrefixOf hay || jsIncludes t needle

/-! All declarations modelling the repository's own code live in this
namespace; base names match the source. -/

namespace Keiba

/-! ## Data model (src/types.ts) -/

/-- `Rank` from src/types.ts. -/
inductive Rank where
  | S | A | B | C
deriving DecidableEq, Inhabited

/-- `RunnerParsed` from src/types.ts. -/
structure RunnerParsed where
  rawLine : Str
  horseName : Option Str := none
  jockeyName : Option Str := none
  winPopularity : Option Nat := none
  winOdds : Option Dec := none
  placeLow : Option Dec := none
  placeHigh : Option Dec := none
  placeRangeRaw : Option Str := none
deriving DecidableEq, Inhabited

/-- `RaceBlock` from src/types.ts. -/
structure RaceBlock where
  trackName : Option Str := none
  raceNo : Nat
  runners : List RunnerParsed
deriving DecidableEq, Inhabited

/-- `PickCard` from src/types.ts. -/
structure PickCard where
  rank : Rank
  trackName : Option Str := none
  raceNo : Nat
  horseName : Str
  jockeyName : Option Str := none
  winPopularity : Option Nat := none
  winOdds : Option Dec := none
  placeRangeText : Str
  placeLow : Option Dec := none
  tags : List Str
  reason : Option Str := none
deriving DecidableEq, Inhabited

/-! ## Rendering helpers (JS template literals / number printing) -/

/-- Decimal digits of a natural number. -/
def natStr (n : Nat) : Str := str (Nat.repr n)

/-- Drop trailing decimal zeros (JS prints the shortest decimal). -/
def stripZeros : Int → Nat → Int × Nat
  | n, 0 => (n, 0)
  | n, e + 1 => if n % 10 == 0 then stripZeros (n / 10) e else (n, e + 1)

/-- JS printing of the decimal values this program produces; used only
to build `rawLine` strings and the fallback display text. -/
def decToStr (d : Dec) : Str :=
  let p := stripZeros d.num d.exp
  let n := p.1
  let e := p.2
  let sign : Str := if n < 0 then [cp '-'] else []
  let m := n.natAbs
  if e = 0 then sign ++ natStr m
  else
    let ip := m / 10 ^ e
    let fr := m % 10 ^ e
    let ds := natStr fr
    sign ++ natStr ip ++ [cp '.'] ++ (List.replicate (e - ds.length) (cp '0') ++ ds)

/-- JS `Number.prototype.toFixed(1)` on the non-negative values used here:
round to one decimal (ties toward +infinity) and print one fractional
digit. -/
def toFixed1 (d : Dec) : Str :=
  let r := (Dec.roundHalf (Dec.mul d ⟨10, 0⟩)).toNat
  natStr (r / 10) ++ [cp '.'] ++ natStr (r % 10)

/-! ## Normalizer (src/parser.ts `normalize`)

`String.prototype.normalize("NFKC")` is modelled by its action on the
code points this program's inputs contain: the full-width ASCII block
U+FF01–U+FF5E maps to ASCII (shift by 0xFEE0) and the ideographic space
U+3000 maps to U+0020; all other relevant code points (ASCII, kana,
CJK ideographs, the dash variants) are NFKC-fixed and map to themselves.
-/

/-- Per-code-point model of NFKC (full-width to half-width folding). -/
def nfkcCp (c : Nat) : Nat :=
  if 0xFF01 ≤ c && c ≤ 0xFF5E then c - 0xFEE0
  else if c == 0x3000 then 0x20
  else c

/-- `replaceAll` of one code point by another is a per-code-point map. -/
def replCp (a b : Nat) (c : Nat) : Nat := if c == a then b else c

/-- `normalize` from src/parser.ts: NFKC folding, then the four dash
variants (U+301C, U+2013, U+2015, U+2014) collapsed to "-", then the
ideographic space collapsed to " ". -/
def normalize (s : Str) : Str :=
  let nfkc := s.map nfkcCp
  ((((nfkc.map (replCp 0x301C (cp '-'))).map
      (replCp 0x2013 (cp '-'))).map
      (replCp 0x2015 (cp '-'))).map
      (replCp 0x2014 (cp '-'))).map
      (replCp 0x3000 (cp ' '))

/-! ## Line classifiers (src/parser.ts) -/

/-- The fixed `TRACKS` table from src/parser.ts. -/
def TRACKS : List Str :=
  [str "札幌", str "函館", str "福島", str "新潟", str "東京",
   str "中山", str "中京", str "京都", str "阪神", str "小倉"]

/-- Regex alternation over the ten track names, in source order. -/
def trackAlt : Rx.M Str :=
  TRACKS.foldr (fun t acc => Rx.alt (do Rx.lit t; pure t) acc) (fun _ => [])

/-- Regex `([1-9]|1[0-2])`: a race number, with the source's alternative
order (single digit 1-9 preferred, then "1" followed by 0-2). -/
def raceNumPat : Rx.M Nat :=
  Rx.alt (do let c ← Rx.one (fun c => 49 ≤ c && c ≤ 57); pure (c - 48))
         (do Rx.lit [cp '1']; let c ← Rx.one (fun c => 48 ≤ c && c ≤ 50)
             pure (10 + (c - 48)))

/-- Regex `(R|レース|競走)`. -/
def raceSuffixPat : Rx.M Unit :=
  Rx.alt (Rx.lit (str "R")) (Rx.alt (Rx.lit (str "レース")) (Rx.lit (str "競走")))

/-- Regex `(?:第\s*)?`. -/
def ordinalPat : Rx.M Unit := do
  let _ ← Rx.opt (do Rx.lit (str "第"); Rx.ws)
  pure ()

/-- The venue+number header regex of `detectHeader` (its first pattern). -/
def headerPat1 : Rx.M (Str × Nat) := do
  let t ← trackAlt
  Rx.ws
  ordinalPat
  let n ← raceNumPat
  Rx.ws
  raceSuffixPat
  pure (t, n)

/-- The number-only header regex of `detectHeader` (its second pattern). -/
def headerPat2 : Rx.M Nat := do
  ordinalPat
  let n ← raceNumPat
  Rx.ws
  raceSuffixPat
  pure n

/-- `detectHeader` from src/parser.ts. -/
def detectHeader (line : Str) : Option (Option Str × Nat) :=
  let m2 :=
    match Rx.search headerPat2 line with
    | some n => if 1 ≤ n && n ≤ 12 then some ((none : Option Str), n) else none
    | none => none
  match Rx.search headerPat1 line with
  | some (t, n) =>
    if TRACKS.contains t && (1 ≤ n && n ≤ 12) then some (some t, n) else m2
  | none => m2

/-- Regex `^\d+\s+\d+$` (post-position noise pairs). -/
def numPairPat : Rx.M Unit := do
  let _ ← Rx.plusCh isDigitCp
  Rx.ws1
  let _ ← Rx.plusCh isDigitCp
  Rx.eos

/-- `isNoiseLine` from src/parser.ts. -/
def isNoiseLine (line : Str) : Bool :=
  let t := jsTrim line
  if t.isEmpty then true
  else if t == str "--" then true
  else if t == str "編集" then true
  else if jsIncludes t (str "勝負服") then true
  else if (str "父：").isPrefixOf t || (str "母：").isPrefixOf t then true
  else if jsIncludes t (str "ノーザンファーム") || jsIncludes t (str "ファーム")
       || jsIncludes t (str "牧場") then true
  else if jsIncludes t (str "栗東") || jsIncludes t (str "美浦") then true
  else if jsIncludes t (str "ブリンカー") || jsIncludes t (str "着用") then true
  else if (Rx.matchHere numPairPat t).isSome then true
  else false

/-- `detectFrameStart` from src/parser.ts: regex `^枠\d`. -/
def detectFrameStart (line : Str) : Bool :=
  (Rx.matchHere (do Rx.lit (str "枠"); let _ ← Rx.one isDigitCp; pure ())
    (jsTrim line)).isSome

/-- `looksLikeHorseNameLine` from src/parser.ts. -/
def looksLikeHorseNameLine (line : Str) : Bool :=
  let t := jsTrim line
  if isNoiseLine t then false
  else if t.any isDigitCp then false
  else if jsIncludes t (str "kg") || jsIncludes t (str "万円")
       || jsIncludes t (str "年") then false
  else if t.any (fun c => c == cp '牡' || c == cp '牝' || c == cp 'セ') then false
  else if t.length < 2 || t.length > 25 then false
  else true

/-- `parseOddsOnlyLine` from src/parser.ts: regex `^\d+\.\d+$`. -/
def parseOddsOnlyLine (line : Str) : Option Dec :=
  let t := jsTrim line
  Rx.matchHere
    (do let ip ← Rx.plusCh isDigitCp
        Rx.lit [cp '.']
        let fp ← Rx.plusCh isDigitCp
        Rx.eos
        pure (decVal ip (some fp))) t

/-- `parsePopularityOnlyLine` from src/parser.ts:
regex `^\(?\s*(\d{1,2})\s*番人気\s*\)?$`. -/
def parsePopularityOnlyLine (line : Str) : Option Nat :=
  let t := jsTrim line
  Rx.matchHere
    (do let _ ← Rx.opt (Rx.lit [cp '('])
        Rx.ws
        let d ← Rx.oneTwo isDigitCp
        Rx.ws
        Rx.lit (str "番人気")
        Rx.ws
        let _ ← Rx.opt (Rx.lit [cp ')'])
        Rx.eos
        pure (digitsToNat d)) t

end Keiba

namespace Keiba

/-- Split on runs of whitespace and drop empty pieces:
JS `line.split(/\s+/).filter(Boolean)`. -/
def splitWsAux (cur : Str) : Str → List Str
  | [] => if cur.isEmpty then [] else [cur.reverse]
  | c :: t =>
    if isSpaceCp c then
      if cur.isEmpty then splitWsAux [] t else cur.reverse :: splitWsAux [] t
    else splitWsAux (c :: cur) t

/-- See `splitWsAux`. -/
def splitWs (s : Str) : List Str := splitWsAux [] s

/-- JS `Number(token)` on the whitespace-separated tokens of a runner
line: the numeric value when the token is a plain decimal literal
`\d+(\.\d+)?`, `NaN` (here `none`) otherwise. -/
def jsNumber? (tok : Str) : Option Dec :=
  Rx.matchHere (do let d ← Rx.decNum; Rx.eos; pure (decOfStr d)) tok

/-- The jockey-guessing loop of `parseOddsPopAtLineEnd`: the token after
the first token that reads as a number in [45, 65]. -/
def findJockey : List Str → Option Str
  | [] => none
  | [_] => none
  | a :: b :: rest =>
    match jsNumber? a with
    | some v =>
      if Dec.ble (Dec.ofNat 45) v && Dec.ble v (Dec.ofNat 65) then some b
      else findJockey (b :: rest)
    | none => findJockey (b :: rest)

/-- Regex `(\d+(?:\.\d+)?)\s+(\d{1,2})\s*$` of `parseOddsPopAtLineEnd`. -/
def oddsPopEndPat : Rx.M (Dec × Nat) := do
  let o ← Rx.decNum
  Rx.ws1
  let p ← Rx.oneTwo isDigitCp
  Rx.ws
  Rx.eos
  pure (decOfStr o, digitsToNat p)

/-- `parseOddsPopAtLineEnd` from src/parser.ts. -/
def parseOddsPopAtLineEnd (line : Str) : Option (Dec × Nat × Option Str) :=
  match Rx.search oddsPopEndPat line with
  | none => none
  | some (o, p) => some (o, p, findJockey (splitWs line))

/-- Regex `^(.+?)\s+(\d+(?:\.\d+)?)\s*\(\s*(\d{1,2})\s*番人気\s*\)` of
`parseRunnerLineSingle`.  `.` is any code point but a line terminator. -/
def runnerSinglePat1 : Rx.M (Str × Dec × Nat) := do
  let name ← Rx.lazyPlusCh
    (fun c => !(c == 10 || c == 13 || c == 0x2028 || c == 0x2029))
  Rx.ws1
  let o ← Rx.decNum
  Rx.ws
  Rx.lit [cp '(']
  Rx.ws
  let p ← Rx.oneTwo isDigitCp
  Rx.ws
  Rx.lit (str "番人気")
  Rx.ws
  Rx.lit [cp ')']
  pure (name, decOfStr o, digitsToNat p)

/-- Regex `(\d{1,2})\s*(?:番)?人気` (popularity marker search). -/
def popPat : Rx.M Nat := do
  let d ← Rx.oneTwo isDigitCp
  Rx.ws
  let _ ← Rx.opt (Rx.lit (str "番"))
  Rx.lit (str "人気")
  pure (digitsToNat d)

/-- Regex `(?:複|複勝)` — alternative order as in the source. -/
def fukuTag : Rx.M Unit := Rx.alt (Rx.lit (str "複")) (Rx.lit (str "複勝"))

/-- Regex `\s*[:：]?\s*`. -/
def sepColon : Rx.M Unit := do
  Rx.ws
  let _ ← Rx.opt (Rx.one (fun c => c == cp ':' || c == cp '：'))
  Rx.ws

/-- Regex `(\d+(?:\.\d+)?)\s*-\s*(\d+(?:\.\d+)?)`, returning the two
captured texts. -/
def bareRangePat : Rx.M (Str × Str) := do
  let a ← Rx.decNum
  Rx.ws
  Rx.lit [cp '-']
  Rx.ws
  let b ← Rx.decNum
  pure (a, b)

/-- First place-range regex: labelled `a-b`. -/
def rangePat1 : Rx.M (Str × Str) := do
  fukuTag; sepColon; bareRangePat

/-- Second place-range regex: labelled `a b` (space separated). -/
def rangePat2 : Rx.M (Str × Str) := do
  fukuTag; sepColon
  let a ← Rx.decNum
  Rx.ws1
  let b ← Rx.decNum
  pure (a, b)

/-- The `rangeM` chain of `parseRunnerLineSingle`: the three regexes
tried in source order. -/
def rangeOf (line : Str) : Option (Str × Str) :=
  (Rx.search rangePat1 line).orElse
    (fun _ => (Rx.search rangePat2 line).orElse
      (fun _ => Rx.search bareRangePat line))

/-- Regex `(?:単|単勝)\s*[:：]?\s*(\d+(?:\.\d+)?)` (win odds search). -/
def winOddsPat : Rx.M Dec := do
  let _ ← Rx.alt (Rx.lit (str "単")) (Rx.lit (str "単勝"))
  sepColon
  let o ← Rx.decNum
  pure (decOfStr o)

/-- `parseRunnerLineSingle` from src/parser.ts: shape ① "name odds
(n番人気)" first, then shape ② "popularity + place range". -/
def parseRunnerLineSingle (line : Str) : Option RunnerParsed :=
  match Rx.matchHere runnerSinglePat1 line with
  | some (name, o, p) =>
    some { rawLine := line, horseName := some (jsTrim name),
           winOdds := some o, winPopularity := some p }
  | none =>
    match Rx.search popPat line, rangeOf line with
    | some pop, some (aRaw, bRaw) =>
      let base : RunnerParsed :=
        { rawLine := line, winPopularity := some pop,
          placeLow := some (decOfStr aRaw), placeHigh := some (decOfStr bRaw),
          placeRangeRaw := some (aRaw ++ [cp '-'] ++ bRaw) }
      match Rx.search winOddsPat line with
      | some w => some { base with winOdds := some w }
      | none => some base
    | _, _ => none

/-- `ParseStats` from src/parser.ts. -/
structure ParseStats where
  detectedTracks : Nat
  detectedRaces : Nat
  detectedHeaders : Nat
  detectedRunnerLines : Nat
  ignoredLines : Nat
deriving DecidableEq, Inhabited

/-- The mutable locals of `parseAll`'s line loop. -/
structure PState where
  blocks : List RaceBlock
  currentTrack : Option Str
  currentRaceNo : Option Nat
  currentRunners : List RunnerParsed
  pendingHorseName : Option Str
  cardActive : Bool
  cardHorseName : Option Str
  cardWinOdds : Option Dec
  cardWinPop : Option Nat
  stats : ParseStats
deriving DecidableEq, Inhabited

/-- The `flush` closure of `parseAll`: push the current block when it has
a race number and at least one runner, then reset the per-block state. -/
def flushState (st : PState) : PState :=
  let blocks :=
    match st.currentRaceNo with
    | some n =>
      if st.currentRunners.isEmpty then st.blocks
      else st.blocks ++ [{ trackName := st.currentTrack, raceNo := n,
                           runners := st.currentRunners }]
    | none => st.blocks
  { st with
    blocks := blocks
    currentRunners := []
    pendingHorseName := none
    cardActive := false
    cardHorseName := none
    cardWinOdds := none
    cardWinPop := none }

/-- The `pushRunner` closure of `parseAll`: headerless input becomes an
implicit race 1. -/
def pushRunner (st : PState) (r : RunnerParsed) : PState :=
  { st with
    currentRaceNo := some (st.currentRaceNo.getD 1)
    currentRunners := st.currentRunners ++ [r]
    stats := { st.stats with
               detectedRunnerLines := st.stats.detectedRunnerLines + 1 } }

/-- The tail of the line loop: remember a pending horse-name line, or
count the line as ignored. -/
def pendingOrIgnore (st : PState) (line : Str) : PState :=
  if looksLikeHorseNameLine line then
    { st with pendingHorseName := some (jsTrim line) }
  else
    { st with stats := { st.stats with
        ignoredLines := st.stats.ignoredLines + 1 } }

/-- The `rawLine` template of the frame-capture branch:
"name / odds:o pop:p". -/
def frameRawLine (h : Str) (o : Dec) (p : Nat) : Str :=
  h ++ str " / odds:" ++ decToStr o ++ str " pop:" ++ natStr p

/-- One iteration of `parseAll`'s `for (const line of lines)` loop,
branch for branch. -/
def parseLine (st : PState) (line : Str) : PState :=
  match detectHeader line with
  | some (tr, n) =>
    let st := flushState st
    { st with
      currentTrack := tr
      currentRaceNo := some n
      stats := { st.stats with detectedHeaders := st.stats.detectedHeaders + 1 } }
  | none =>
    if detectFrameStart line then
      { st with
        cardActive := true
        cardHorseName := none
        cardWinOdds := none
        cardWinPop := none
        pendingHorseName := none }
    else if isNoiseLine line then st
    else if st.cardActive then
      if st.cardHorseName.isNone && looksLikeHorseNameLine line then
        { st with cardHorseName := some (jsTrim line) }
      else
        match st.cardWinOdds, parseOddsOnlyLine line with
        | none, some o => { st with cardWinOdds := some o }
        | _, _ =>
          let st :=
            match st.cardWinPop, parsePopularityOnlyLine line with
            | none, some p => { st with cardWinPop := some p }
            | _, _ => st
          match st.cardHorseName, st.cardWinOdds, st.cardWinPop with
          | some h, some o, some p =>
            let st := pushRunner st
              { rawLine := frameRawLine h o p, horseName := some h,
                winOdds := some o, winPopularity := some p }
            { st with
              cardActive := false
              cardHorseName := none
              cardWinOdds := none
              cardWinPop := none }
          | _, _, _ => st
    else
      match parseRunnerLineSingle line with
      | some r =>
        let st := pushRunner st r
        { st with pendingHorseName := none }
      | none =>
        match st.pendingHorseName with
        | some nm =>
          match parseOddsPopAtLineEnd line with
          | some (o, p, j) =>
            let st := pushRunner st
              { rawLine := nm ++ str " / " ++ line, horseName := some nm,
                jockeyName := j, winOdds := some o, winPopularity := some p }
            { st with pendingHorseName := none }
          | none => pendingOrIgnore st line
        | none => pendingOrIgnore st line

/-- Strip one carriage return that immediately precedes a line feed
(the reversed accumulator's head). -/
def stripCr (cur : Str) : Str :=
  match cur with
  | 13 :: r => r
  | _ => cur

/-- Split on `/\r?\n/` (JS `text.split`). The accumulator holds the
current piece reversed. -/
def splitNlAux (cur : Str) : Str → List Str
  | [] => [cur.reverse]
  | c :: t =>
    if c == 10 then (stripCr cur).reverse :: splitNlAux [] t
    else splitNlAux (c :: cur) t

/-- See `splitNlAux`. -/
def splitNewlines (s : Str) : List Str := splitNlAux [] s

/-- The zero-initialised `ParseStats` of `parseAll`. -/
def stats0 : ParseStats :=
  { detectedTracks := 0, detectedRaces := 0, detectedHeaders := 0,
    detectedRunnerLines := 0, ignoredLines := 0 }

/-- The initial loop state of `parseAll`. -/
def pstate0 : PState :=
  { blocks := [], currentTrack := none, currentRaceNo := none,
    currentRunners := [], pendingHorseName := none, cardActive := false,
    cardHorseName := none, cardWinOdds := none, cardWinPop := none,
    stats := stats0 }

/-- `parseAll` from src/parser.ts. -/
def parseAll (text : Str) : List RaceBlock × ParseStats :=
  let lines := ((splitNewlines (normalize text)).map jsTrim).filter
    (fun l => !l.isEmpty)
  let st := flushState (lines.foldl parseLine pstate0)
  let stats :=
    { st.stats with
      detectedRaces := st.blocks.length
      detectedTracks := ((st.blocks.filterMap RaceBlock.trackName).dedup).length }
  (st.blocks, stats)

end Keiba

namespace Keiba

/-! ## Scorer (src/evaluator.ts) -/

/-- `MID_POP_MIN` from src/evaluator.ts. -/
def MID_POP_MIN : Nat := 4

/-- `MID_POP_MAX` from src/evaluator.ts. -/
def MID_POP_MAX : Nat := 8

/-- `A_FLOOR` from src/evaluator.ts (2.2). -/
def A_FLOOR : Dec := ⟨22, 1⟩

/-- `S_FLOOR` from src/evaluator.ts (3.0). -/
def S_FLOOR : Dec := ⟨30, 1⟩

/-- The strong-field C reason string of `evaluate`. -/
def strongReason : Str := str "相手強すぎ（1〜2番人気が2頭）"

/-- The no-mid-tier C reason string of `evaluate`. -/
def noMidReason : Str := str "中穴候補なし（4〜8人気なし）"

/-- The count of runners at popularity 1 or 2 (`top12` in `evaluate`). -/
def top12Count (runners : List RunnerParsed) : Nat :=
  (runners.filter fun r =>
    r.winPopularity == some 1 || r.winPopularity == some 2).length

/-- The mid-tier candidate filter of `evaluate` (popularity 4-8, absent
treated as 99). -/
def midCandidates (runners : List RunnerParsed) : List RunnerParsed :=
  runners.filter fun r =>
    let p := r.winPopularity.getD 99
    MID_POP_MIN ≤ p && p ≤ MID_POP_MAX

/-- `a.placeLow ?? -1` in the candidate comparator. -/
def loOrNeg (r : RunnerParsed) : Dec := r.placeLow.getD ⟨-1, 0⟩

/-- `a.winPopularity ?? 99` in the candidate comparator. -/
def popD (r : RunnerParsed) : Nat := r.winPopularity.getD 99

/-- The candidate comparator of `evaluate` as a Boolean total preorder:
`candLeB a b` iff the JS comparator returns a non-positive number on
`(a, b)` (descending `placeLow ?? -1`, ties by ascending popularity). -/
def candLeB (a b : RunnerParsed) : Bool :=
  if Dec.bveq (loOrNeg a) (loOrNeg b) then popD a ≤ popD b
  else Dec.blt (loOrNeg b) (loOrNeg a)

/-- Propositional form of `candLeB`. -/
def candLe (a b : RunnerParsed) : Prop := candLeB a b = true

instance : DecidableRel candLe := fun a b => instDecidableEqBool (candLeB a b) true

/-- The mid-tier tag template "中穴(...人気)" shared by `evaluate` and
`updateTags` (the en dash "4–8" fallback when popularity is unknown). -/
def midTagOf (pop : Option Nat) : Str :=
  str "中穴(" ++ (match pop with
                  | some p => natStr p
                  | none => str "4–8") ++ str "人気)"

/-- `evaluate` from src/evaluator.ts.  JS `Array.prototype.sort` is
stable (ES2019); a stable sort for a total preorder has a unique result,
modelled by `List.insertionSort`. -/
def evaluate (block : RaceBlock) : PickCard :=
  let runners := block.runners
  let top12 := top12Count runners
  if 2 ≤ top12 then
    { rank := Rank.C, trackName := block.trackName, raceNo := block.raceNo,
      horseName := [], placeRangeText := [], tags := [],
      reason := some strongReason }
  else
    let candidates := midCandidates runners
    if candidates.isEmpty then
      { rank := Rank.C, trackName := block.trackName, raceNo := block.raceNo,
        horseName := [], placeRangeText := [], tags := [],
        reason := some noMidReason }
    else
      let best := (List.insertionSort candLe candidates).headD default
      let lo := best.placeLow.getD ⟨0, 0⟩
      let placeRangeText :=
        let t := (best.placeRangeRaw.getD []).map (replCp (cp '-') 0x2013)
        if t.isEmpty then decToStr lo else t
      let rank := if Dec.ble S_FLOOR lo then Rank.S
                  else if Dec.ble A_FLOOR lo then Rank.A else Rank.B
      let tags := [midTagOf best.winPopularity]
        ++ (if Dec.ble A_FLOOR lo then [str "妙味あり"] else [])
        ++ (if top12 ≤ 1 then [str "相手弱め"] else [])
      { rank := rank, trackName := block.trackName, raceNo := block.raceNo,
        horseName := best.horseName.getD (str "（馬名不明）"),
        jockeyName := best.jockeyName, winPopularity := best.winPopularity,
        winOdds := best.winOdds, placeRangeText := placeRangeText,
        placeLow := best.placeLow, tags := tags.take 3 }

/-- `evaluateAll` from src/evaluator.ts. -/
def evaluateAll (blocks : List RaceBlock) : List PickCard :=
  blocks.map evaluate

/-- The `key` helper of `recommendedSorted`. -/
def rankKey : Rank → Nat
  | Rank.S => 0
  | Rank.A => 1
  | Rank.B => 2
  | Rank.C => 3

/-- `a.placeLow ?? -1` in the card comparator. -/
def cardLo (c : PickCard) : Dec := c.placeLow.getD ⟨-1, 0⟩

/-- The tie-break string "{trackName ?? 不明}{raceNo}". -/
def cardSortText (c : PickCard) : Str :=
  (c.trackName.getD (str "不明")) ++ natStr c.raceNo

/-- Code-point lexicographic string order; models
`String.prototype.localeCompare` returning a non-positive number (for
the venue-plus-race strings compared here, collation agrees with
code-point order). -/
def lexLeB : Str → Str → Bool
  | [], _ => true
  | _ :: _, [] => false
  | a :: as, b :: bs => if a < b then true else if b < a then false else lexLeB as bs

/-- The comparator of `recommendedSorted` as a Boolean total preorder:
rank key ascending, then `placeLow ?? -1` descending, then the
venue-plus-race string ascending. -/
def cardLeB (a b : PickCard) : Bool :=
  if rankKey a.rank == rankKey b.rank then
    if Dec.bveq (cardLo a) (cardLo b) then lexLeB (cardSortText a) (cardSortText b)
    else Dec.blt (cardLo b) (cardLo a)
  else rankKey a.rank < rankKey b.rank

/-- Propositional form of `cardLeB`. -/
def cardLe (a b : PickCard) : Prop := cardLeB a b = true

instance : DecidableRel cardLe := fun a b => instDecidableEqBool (cardLeB a b) true

/-- `recommendedSorted` from src/evaluator.ts. -/
def recommendedSorted (cards : List PickCard) : List PickCard :=
  List.insertionSort cardLe
    (cards.filter fun c => c.rank == Rank.S || c.rank == Rank.A)

end Keiba

namespace Keiba

/-! ## Correction path (the update-mode App in src/evaluator.ts) -/

/-- `getCardKey` from src/evaluator.ts. -/
def getCardKey (c : PickCard) : Str :=
  (c.trackName.getD (str "不明")) ++ [cp '_'] ++ natStr c.raceNo
    ++ [cp '_'] ++ c.horseName

/-- `rankFromPlaceLow` from src/evaluator.ts. -/
def rankFromPlaceLow (placeLow : Dec) : Rank :=
  if Dec.ble ⟨30, 1⟩ placeLow then Rank.S
  else if Dec.ble ⟨22, 1⟩ placeLow then Rank.A
  else Rank.B

/-- `updateTags` from src/evaluator.ts.  `indexOf`/`splice` removes the
first occurrence, modelled by `List.erase`. -/
def updateTags (prevTags : List Str) (winPopularity : Option Nat)
    (placeLow : Dec) : List Str :=
  let mid := midTagOf winPopularity
  let hasMid := prevTags.any (fun t => (str "中穴(").isPrefixOf t)
  let tags :=
    if !hasMid then mid :: prevTags
    else prevTags.map (fun t => if (str "中穴(").isPrefixOf t then mid else t)
  let hasValue := tags.contains (str "妙味あり")
  let tags :=
    if Dec.ble ⟨22, 1⟩ placeLow then
      (if !hasValue then tags ++ [str "妙味あり"] else tags)
    else tags.erase (str "妙味あり")
  let ordered :=
    (match tags.find? (fun t => (str "中穴(").isPrefixOf t) with
     | some t => [t]
     | none => [])
    ++ (if tags.contains (str "妙味あり") then [str "妙味あり"] else [])
    ++ (if tags.contains (str "相手弱め") then [str "相手弱め"] else [])
  ordered.take 3

/-- The result record of `extractOddsFromPastedText`. -/
structure ExtractResult where
  placeLow : Option Dec := none
  placeHigh : Option Dec := none
  placeRangeRaw : Option Str := none
  winOdds : Option Dec := none
deriving DecidableEq, Inhabited

/-- `extractOddsFromPastedText` from src/evaluator.ts: normalize dashes
and ideographic spaces, take the first non-empty trimmed line containing
the horse name (whole text if none), then search for a bare numeric
range and a labelled win-odds value. -/
def extractOddsFromPastedText (text : Str) (horseName : Str) : ExtractResult :=
  let normalized :=
    ((((text.map (replCp 0x301C (cp '-'))).map
        (replCp 0x2013 (cp '-'))).map
        (replCp 0x2015 (cp '-'))).map
        (replCp 0x2014 (cp '-'))).map
        (replCp 0x3000 (cp ' '))
  let lines := ((splitNewlines normalized).map jsTrim).filter
    (fun l => !l.isEmpty)
  let targetLine := (lines.find? (fun l => jsIncludes l horseName)).getD normalized
  let wo := Rx.search winOddsPat targetLine
  match Rx.search bareRangePat targetLine with
  | some (a, b) =>
    { placeLow := some (decOfStr a), placeHigh := some (decOfStr b),
      placeRangeRaw := some (a ++ [cp '-'] ++ b), winOdds := wo }
  | none => { winOdds := wo }

/-- The React state touched by `applyUpdate`: the analyzed card list,
the update worklist, and the per-card pasted texts (a keyed record,
modelled as an association list). -/
structure AppState where
  cards : List PickCard
  updateTargets : List PickCard
  updateInputs : List (Str × Str)
deriving DecidableEq, Inhabited

/-- Record read `updateInputs[key] ?? ""`. -/
def lookupInput (inputs : List (Str × Str)) (key : Str) : Str :=
  (((inputs.find? (fun p => p.1 == key)).map Prod.snd).getD [])

/-- Record write `{ ...prev, [key]: v }`. -/
def setInput : List (Str × Str) → Str → Str → List (Str × Str)
  | [], key, v => [(key, v)]
  | p :: rest, key, v =>
    if p.1 == key then (key, v) :: rest else p :: setInput rest key v

/-- `applyUpdate` from src/evaluator.ts as a state transition; the
returned flag is true when the correction was applied and false when an
alert was shown instead (empty input, or no extractable range). -/
def applyUpdate (st : AppState) (card : PickCard) : AppState × Bool :=
  let key := getCardKey card
  let pasted := lookupInput st.updateInputs key
  if (jsTrim pasted).isEmpty then (st, false)
  else
    let upd := extractOddsFromPastedText pasted card.horseName
    match upd.placeRangeRaw, upd.placeLow, upd.placeHigh with
    | some raw, some lo, some _ =>
      let nextCard : PickCard :=
        { card with
          rank := rankFromPlaceLow lo
          placeRangeText := raw.map (replCp (cp '-') 0x2013)
          placeLow := some lo
          winOdds := upd.winOdds.orElse (fun _ => card.winOdds)
          tags := updateTags card.tags card.winPopularity lo }
      ({ st with
         updateTargets := st.updateTargets.map
           (fun c => if getCardKey c == key then nextCard else c)
         cards := st.cards.map
           (fun c => if getCardKey c == key then nextCard else c)
         updateInputs := setInput st.updateInputs key [] }, true)
    | _, _, _ => (st, false)

/-! ## The estimating scorer variant (src/unnamed/part_001)

An earlier full revision of the evaluator, kept in the repository, that
derives a place-odds lower bound from win odds when no measured range is
available.  Shares the data model and the constants above; its
top-1-or-2-popularity veto and reason strings are identical to the
current evaluator's. -/

namespace Part001

/-- `estimatePlaceLowFromWinOdds` from src/unnamed/part_001 (identical
in src/unnamed/part_000): `clamp(1.2, 6.0, 1.2 + winOdds * 0.25)`
rounded to one decimal.  A JS `NaN` win-odds value cannot arise from the
parsers, so the `Number.isNaN` guard is subsumed by `none`. -/
def estimatePlaceLowFromWinOdds (winOdds : Option Dec) : Option Dec :=
  match winOdds with
  | none => none
  | some w =>
    let raw := Dec.add ⟨12, 1⟩ (Dec.mul w ⟨25, 2⟩)
    let clamped := Dec.maxD ⟨12, 1⟩ (Dec.minD ⟨60, 1⟩ raw)
    some ⟨Dec.roundHalf (Dec.mul clamped ⟨10, 0⟩), 1⟩

/-- `placeText` from src/unnamed/part_001: the genuine range with dashes
rendered as en dashes, or the "推定...+" estimated label. -/
def placeText (best : RunnerParsed) (lo : Dec) (estimated : Bool) : Str :=
  if !estimated && !(best.placeRangeRaw.getD []).isEmpty then
    (best.placeRangeRaw.getD []).map (replCp (cp '-') 0x2013)
  else str "推定" ++ toFixed1 lo ++ [cp '+']

/-- One entry of the `scored` array: the runner, its operative `lo`, and
the estimated flag. -/
abbrev Scored := RunnerParsed × Dec × Bool

/-- The operative `lo` of a candidate:
`r.placeLow ?? estimatePlaceLowFromWinOdds(r.winOdds) ?? -1`. -/
def loFor (r : RunnerParsed) : Dec :=
  r.placeLow.getD ((estimatePlaceLowFromWinOdds r.winOdds).getD ⟨-1, 0⟩)

/-- The `scored` comparator as a Boolean total preorder (descending
`lo`, ties by ascending popularity). -/
def scoredLeB (a b : Scored) : Bool :=
  if Dec.bveq a.2.1 b.2.1 then popD a.1 ≤ popD b.1
  else Dec.blt b.2.1 a.2.1

/-- Propositional form of `scoredLeB`. -/
def scoredLe (a b : Scored) : Prop := scoredLeB a b = true

instance : DecidableRel scoredLe := fun a b => instDecidableEqBool (scoredLeB a b) true

/-- `evaluate` from src/unnamed/part_001. -/
def evaluate (block : RaceBlock) : PickCard :=
  let runners := block.runners
  let top12 := top12Count runners
  if 2 ≤ top12 then
    { rank := Rank.C, trackName := block.trackName, raceNo := block.raceNo,
      horseName := [], placeRangeText := [], tags := [],
      reason := some strongReason }
  else
    let candidates := midCandidates runners
    if candidates.isEmpty then
      { rank := Rank.C, trackName := block.trackName, raceNo := block.raceNo,
        horseName := [], placeRangeText := [], tags := [],
        reason := some noMidReason }
    else
      let scored : List Scored :=
        candidates.map (fun r => (r, loFor r, r.placeLow.isNone))
      let top := (List.insertionSort scoredLe scored).headD default
      let best := top.1
      let lo := top.2.1
      let estimated := top.2.2
      let rank := if Dec.ble S_FLOOR lo then Rank.S
                  else if Dec.ble A_FLOOR lo then Rank.A else Rank.B
      let tags := [midTagOf best.winPopularity]
        ++ (if Dec.ble A_FLOOR lo then [str "妙味あり"] else [])
        ++ (if top12 ≤ 1 then [str "相手弱め"] else [])
        ++ (if estimated then [str "要更新"] else [])
      let shown :=
        (match tags.find? (fun t => (str "中穴(").isPrefixOf t) with
         | some t => [t]
         | none => [])
        ++ (if tags.contains (str "妙味あり") then [str "妙味あり"] else [])
        ++ (if tags.contains (str "相手弱め") then [str "相手弱め"] else [])
      let shown := shown
        ++ (if shown.length < 3 && tags.contains (str "要更新")
            then [str "要更新"] else [])
      { rank := rank, trackName := block.trackName, raceNo := block.raceNo,
        horseName := best.horseName.getD (str "（馬名不明）"),
        jockeyName := best.jockeyName, winPopularity := best.winPopularity,
        winOdds := best.winOdds, placeRangeText := placeText best lo estimated,
        placeLow := some lo, tags := shown.take 3 }

end Part001

end Keiba

namespace Keiba

/-- Rational value of `placeLow ?? -1` for a runner. -/
def loRat (r : RunnerParsed) : ℚ := (loOrNeg r).toRat

/-- Rational value of a scored entry's operative `lo`. -/
def Part001.sLoRat (x : Part001.Scored) : ℚ := x.2.1.toRat

end Keiba

/-! ## Bridge lemmas: decimal values as rationals -/

namespace Dec

theorem le_iff {a b : Dec} : le a b ↔ a.toRat ≤ b.toRat := by
  unfold le toRat
  rw [div_le_div_iff₀ (by positivity) (by positivity)]
  constructor <;> intro h <;> exact_mod_cast h

theorem lt_iff {a b : Dec} : lt a b ↔ a.toRat < b.toRat := by
  unfold lt toRat
  rw [div_lt_div_iff₀ (by positivity) (by positivity)]
  constructor <;> intro h <;> exact_mod_cast h

theorem veq_iff {a b : Dec} : veq a b ↔ a.toRat = b.toRat := by
  unfold veq toRat
  rw [div_eq_div_iff (by positivity) (by positivity)]
  constructor <;> intro h <;> exact_mod_cast h

theorem ble_iff {a b : Dec} : ble a b = true ↔ a.toRat ≤ b.toRat := by
  unfold ble; rw [decide_eq_true_iff]; exact le_iff

theorem blt_iff {a b : Dec} : blt a b = true ↔ a.toRat < b.toRat := by
  unfold blt; rw [decide_eq_true_iff]; exact lt_iff

theorem bveq_iff {a b : Dec} : bveq a b = true ↔ a.toRat = b.toRat := by
  unfold bveq; rw [decide_eq_true_iff]; exact veq_iff

theorem toRat_maxD (a b : Dec) : (maxD a b).toRat = max a.toRat b.toRat := by
  unfold maxD
  split_ifs with h
  · rw [max_eq_right (ble_iff.mp h)]
  · rw [max_eq_left (le_of_not_le (fun hc => h (ble_iff.mpr hc)))]

theorem toRat_minD (a b : Dec) : (minD a b).toRat = min a.toRat b.toRat := by
  unfold minD
  split_ifs with h
  · rw [min_eq_left (ble_iff.mp h)]
  · rw [min_eq_right (le_of_not_le (fun hc => h (ble_iff.mpr hc)))]

theorem toRat_add (a b : Dec) : (add a b).toRat = a.toRat + b.toRat := by
  unfold add toRat
  push_cast
  rw [div_add_div _ _ (by positivity) (by positivity),
    div_eq_div_iff (by positivity) (by positivity)]
  ring

theorem toRat_mul (a b : Dec) : (mul a b).toRat = a.toRat * b.toRat := by
  unfold mul toRat
  push_cast
  rw [div_mul_div_comm, pow_add]

theorem roundHalf_eq (d : Dec) : d.roundHalf = ⌊d.toRat + 1 / 2⌋ := by
  unfold roundHalf toRat
  have h : (d.num : ℚ) / (10 : ℚ) ^ d.exp + 1 / 2
      = ((2 * d.num + 10 ^ d.exp : ℤ) : ℚ) / ((2 * 10 ^ d.exp : ℕ) : ℚ) := by
    push_cast
    field_simp
    ring
  rw [h, Rat.floor_intCast_div_natCast]
  push_cast
  rfl

end Dec

namespace Keiba

theorem candLe_iff {a b : RunnerParsed} :
    candLe a b ↔ loRat b < loRat a ∨ (loRat a = loRat b ∧ popD a ≤ popD b) := by
  unfold candLe candLeB loRat
  cases hb : Dec.bveq (loOrNeg a) (loOrNeg b) with
  | false =>
    rw [if_neg (by simp [hb])]
    rw [Dec.blt_iff]
    have hne : ¬(loOrNeg a).toRat = (loOrNeg b).toRat := by
      intro hc
      rw [← Dec.bveq_iff] at hc
      rw [hb] at hc
      exact Bool.false_ne_true hc
    constructor
    · exact fun h => Or.inl h
    · rintro (h | ⟨he, _⟩)
      · exact h
      · exact absurd he hne
  | true =>
    rw [if_pos (by simp [hb])]
    have he : (loOrNeg a).toRat = (loOrNeg b).toRat := Dec.bveq_iff.mp hb
    rw [decide_eq_true_iff]
    constructor
    · exact fun h => Or.inr ⟨he, h⟩
    · rintro (h | ⟨_, hp⟩)
      · rw [he] at h
        exact absurd h (lt_irrefl _)
      · exact hp

instance : IsTotal RunnerParsed candLe := ⟨by
  intro a b
  rw [candLe_iff, candLe_iff]
  rcases lt_trichotomy (loRat a) (loRat b) with h | h | h
  · exact Or.inr (Or.inl h)
  · rcases Nat.le_total (popD a) (popD b) with hp | hp
    · exact Or.inl (Or.inr ⟨h, hp⟩)
    · exact Or.inr (Or.inr ⟨h.symm, hp⟩)
  · exact Or.inl (Or.inl h)⟩

instance : IsTrans RunnerParsed candLe := ⟨by
  intro a b c h1 h2
  rw [candLe_iff] at h1 h2 ⊢
  rcases h1 with h1 | ⟨e1, p1⟩ <;> rcases h2 with h2 | ⟨e2, p2⟩
  · exact Or.inl (by linarith)
  · exact Or.inl (by linarith [e2.ge, e2.le])
  · exact Or.inl (by linarith [e1.ge, e1.le])
  · exact Or.inr ⟨e1.trans e2, le_trans p1 p2⟩⟩

namespace Part001

theorem scoredLe_iff {a b : Scored} :
    scoredLe a b ↔ sLoRat b < sLoRat a ∨ (sLoRat a = sLoRat b ∧ popD a.1 ≤ popD b.1) := by
  unfold scoredLe scoredLeB sLoRat
  cases hb : Dec.bveq a.2.1 b.2.1 with
  | false =>
    rw [if_neg (by simp [hb])]
    rw [Dec.blt_iff]
    have hne : ¬(a.2.1).toRat = (b.2.1).toRat := by
      intro hc
      rw [← Dec.bveq_iff] at hc
      rw [hb] at hc
      exact Bool.false_ne_true hc
    constructor
    · exact fun h => Or.inl h
    · rintro (h | ⟨he, _⟩)
      · exact h
      · exact absurd he hne
  | true =>
    rw [if_pos (by simp [hb])]
    have he : (a.2.1).toRat = (b.2.1).toRat := Dec.bveq_iff.mp hb
    rw [decide_eq_true_iff]
    constructor
    · exact fun h => Or.inr ⟨he, h⟩
    · rintro (h | ⟨_, hp⟩)
      · rw [he] at h
        exact absurd h (lt_irrefl _)
      · exact hp

instance : IsTotal Scored scoredLe := ⟨by
  intro a b
  rw [scoredLe_iff, scoredLe_iff]
  rcases lt_trichotomy (sLoRat a) (sLoRat b) with h | h | h
  · exact Or.inr (Or.inl h)
  · rcases Nat.le_total (popD a.1) (popD b.1) with hp | hp
    · exact Or.inl (Or.inr ⟨h, hp⟩)
    · exact Or.inr (Or.inr ⟨h.symm, hp⟩)
  · exact Or.inl (Or.inl h)⟩

instance : IsTrans Scored scoredLe := ⟨by
  intro a b c h1 h2
  rw [scoredLe_iff] at h1 h2 ⊢
  rcases h1 with h1 | ⟨e1, p1⟩ <;> rcases h2 with h2 | ⟨e2, p2⟩
  · exact Or.inl (by linarith)
  · exact Or.inl (by linarith [e2.ge, e2.le])
  · exact Or.inl (by linarith [e1.ge, e1.le])
  · exact Or.inr ⟨e1.trans e2, le_trans p1 p2⟩⟩

end Part001

end Keiba

/-- C8: `estimatePlaceLowFromWinOdds` maps win odds 4.0 to the estimate
2.2 and 8.0 to 3.2, and for every win-odds input (zero and arbitrarily
large values included) the returned estimate lies in [1.2, 6.0]. -/
theorem C8_estimate_examples_and_bounds :
    (Keiba.Part001.estimatePlaceLowFromWinOdds (some ⟨40, 1⟩)).map Dec.toRat
        = some (2.2 : ℚ)
    ∧ (Keiba.Part001.estimatePlaceLowFromWinOdds (some ⟨80, 1⟩)).map Dec.toRat
        = some (3.2 : ℚ)
    ∧ ∀ w q, Keiba.Part001.estimatePlaceLowFromWinOdds (some w) = some q →
        (1.2 : ℚ) ≤ q.toRat ∧ q.toRat ≤ 6 := by
  refine ⟨?_, ?_, ?_⟩
  · have h : Keiba.Part001.estimatePlaceLowFromWinOdds (some ⟨40, 1⟩)
        = some ⟨22, 1⟩ := by decide
    rw [h]
    norm_num [Dec.toRat]
  · have h : Keiba.Part001.estimatePlaceLowFromWinOdds (some ⟨80, 1⟩)
        = some ⟨32, 1⟩ := by decide
    rw [h]
    norm_num [Dec.toRat]
  · intro w q h
    unfold Keiba.Part001.estimatePlaceLowFromWinOdds at h
    simp only [Option.some.injEq] at h
    subst h
    set clamped := Dec.maxD ⟨12, 1⟩
      (Dec.minD ⟨60, 1⟩ (Dec.add ⟨12, 1⟩ (Dec.mul w ⟨25, 2⟩))) with hcl
    have h12 : (Dec.mk 12 1).toRat = (1.2 : ℚ) := by norm_num [Dec.toRat]
    have h60 : (Dec.mk 60 1).toRat = (6 : ℚ) := by norm_num [Dec.toRat]
    have hlo : (1.2 : ℚ) ≤ clamped.toRat := by
      rw [hcl, Dec.toRat_maxD, h12]
      exact le_max_left _ _
    have hhi : clamped.toRat ≤ 6 := by
      rw [hcl, Dec.toRat_maxD, Dec.toRat_minD, h12, h60]
      exact max_le (by norm_num) (min_le_left _ _)
    have hr : Dec.roundHalf (Dec.mul clamped ⟨10, 0⟩)
        = ⌊clamped.toRat * 10 + 1 / 2⌋ := by
      rw [Dec.roundHalf_eq, Dec.toRat_mul]
      norm_num [Dec.toRat]
    have hfl : (12 : ℤ) ≤ ⌊clamped.toRat * 10 + 1 / 2⌋ ∧
        ⌊clamped.toRat * 10 + 1 / 2⌋ ≤ 60 := by
      constructor
      · rw [Int.le_floor]
        push_cast
        linarith
      · have : ⌊clamped.toRat * 10 + 1 / 2⌋ < 61 := by
          rw [Int.floor_lt]
          push_cast
          linarith
        omega
    unfold Dec.toRat
    rw [hr]
    constructor
    · have h1 := hfl.1
      have : (12 : ℚ) ≤ (⌊clamped.toRat * 10 + 1 / 2⌋ : ℚ) := by exact_mod_cast h1
      rw [pow_one]
      linarith
    · have h2 := hfl.2
      have : ((⌊clamped.toRat * 10 + 1 / 2⌋ : ℤ) : ℚ) ≤ 60 := by exact_mod_cast h2
      rw [pow_one]
      linarith

/-- Witness for C8: a concrete huge win-odds value (1000) clamps to the
upper bound 6.0, which lies in [1.2, 6.0]. -/
theorem C8_estimate_examples_and_bounds_witness :
    (1.2 : ℚ) ≤ (Dec.mk 60 1).toRat ∧ (Dec.mk 60 1).toRat ≤ 6 :=
  C8_estimate_examples_and_bounds.2.2 ⟨1000, 0⟩ ⟨60, 1⟩ (by decide)

/-- C9: `normalize` is idempotent: normalizing already-normalized text
changes nothing (its per-code-point folding maps every code point to a
fixed point of itself). -/
theorem C9_normalize_idempotent (x : Str) :
    Keiba.normalize (Keiba.normalize x) = Keiba.normalize x := by
  have hmap : ∀ s : Str, Keiba.normalize s = s.map (fun c =>
      Keiba.replCp 0x3000 (cp ' ') (Keiba.replCp 0x2014 (cp '-')
        (Keiba.replCp 0x2015 (cp '-') (Keiba.replCp 0x2013 (cp '-')
          (Keiba.replCp 0x301C (cp '-') (Keiba.nfkcCp c)))))) := by
    intro s
    unfold Keiba.normalize
    simp only [List.map_map]
    rfl
  have hrepl : ∀ a b v : Nat,
      Keiba.replCp a b v = b ∨ (Keiba.replCp a b v = v ∧ v ≠ a) := by
    intro a b v
    unfold Keiba.replCp
    split_ifs with h
    · exact Or.inl rfl
    · exact Or.inr ⟨rfl, by simpa using h⟩
  have hnf : ∀ w : Nat, ¬(0xFF01 ≤ Keiba.nfkcCp w ∧ Keiba.nfkcCp w ≤ 0xFF5E) ∧
      Keiba.nfkcCp w ≠ 0x3000 := by
    intro w
    unfold Keiba.nfkcCp
    split_ifs with hA hB
    · simp only [Bool.and_eq_true, decide_eq_true_eq] at hA
      omega
    · simp only [beq_iff_eq] at hB
      omega
    · simp only [Bool.and_eq_true, decide_eq_true_eq, not_and, not_le] at hA
      simp only [beq_iff_eq] at hB
      omega
  have hcc : ∀ a : Nat,
      Keiba.replCp 0x3000 (cp ' ') (Keiba.replCp 0x2014 (cp '-')
        (Keiba.replCp 0x2015 (cp '-') (Keiba.replCp 0x2013 (cp '-')
          (Keiba.replCp 0x301C (cp '-') (Keiba.nfkcCp
            (Keiba.replCp 0x3000 (cp ' ') (Keiba.replCp 0x2014 (cp '-')
              (Keiba.replCp 0x2015 (cp '-') (Keiba.replCp 0x2013 (cp '-')
                (Keiba.replCp 0x301C (cp '-') (Keiba.nfkcCp a)))))))))))
      = Keiba.replCp 0x3000 (cp ' ') (Keiba.replCp 0x2014 (cp '-')
          (Keiba.replCp 0x2015 (cp '-') (Keiba.replCp 0x2013 (cp '-')
            (Keiba.replCp 0x301C (cp '-') (Keiba.nfkcCp a))))) := by
    intro a
    have g0 := hnf a
    generalize hv0 : Keiba.nfkcCp a = v0 at g0 ⊢
    have p1 := hrepl 0x301C (cp '-') v0
    generalize hv1 : Keiba.replCp 0x301C (cp '-') v0 = v1 at p1 ⊢
    have p2 := hrepl 0x2013 (cp '-') v1
    generalize hv2 : Keiba.replCp 0x2013 (cp '-') v1 = v2 at p2 ⊢
    have p3 := hrepl 0x2015 (cp '-') v2
    generalize hv3 : Keiba.replCp 0x2015 (cp '-') v2 = v3 at p3 ⊢
    have p4 := hrepl 0x2014 (cp '-') v3
    generalize hv4 : Keiba.replCp 0x2014 (cp '-') v3 = v4 at p4 ⊢
    have p5 := hrepl 0x3000 (cp ' ') v4
    generalize hv5 : Keiba.replCp 0x3000 (cp ' ') v4 = v5 at p5 ⊢
    have hdash : cp '-' = 45 := rfl
    have hspace : cp ' ' = 32 := rfl
    rw [hdash] at p1 p2 p3 p4
    rw [hspace] at p5
    have g5 : ¬(0xFF01 ≤ v5 ∧ v5 ≤ 0xFF5E) ∧ v5 ≠ 0x3000 ∧ v5 ≠ 0x301C ∧
        v5 ≠ 0x2013 ∧ v5 ≠ 0x2015 ∧ v5 ≠ 0x2014 := by
      rcases p1 with h1 | ⟨h1, n1⟩ <;> rcases p2 with h2 | ⟨h2, n2⟩ <;>
        rcases p3 with h3 | ⟨h3, n3⟩ <;> rcases p4 with h4 | ⟨h4, n4⟩ <;>
        rcases p5 with h5 | ⟨h5, n5⟩ <;> omega
    have e0 : Keiba.nfkcCp v5 = v5 := by
      unfold Keiba.nfkcCp
      rw [if_neg (by simp only [Bool.and_eq_true, decide_eq_true_eq]; exact g5.1),
          if_neg (by simpa using g5.2.1)]
    have er : ∀ a b : Nat, v5 ≠ a → Keiba.replCp a b v5 = v5 := by
      intro a b hv
      unfold Keiba.replCp
      rw [if_neg (by simpa using hv)]
    rw [e0, er _ _ g5.2.2.1, er _ _ g5.2.2.2.1, er _ _ g5.2.2.2.2.1,
      er _ _ g5.2.2.2.2.2, er _ _ g5.2.1]
  rw [hmap x, hmap (x.map (fun c =>
      Keiba.replCp 0x3000 (cp ' ') (Keiba.replCp 0x2014 (cp '-')
        (Keiba.replCp 0x2015 (cp '-') (Keiba.replCp 0x2013 (cp '-')
          (Keiba.replCp 0x301C (cp '-') (Keiba.nfkcCp c)))))))]
  rw [List.map_map]
  apply List.map_congr_left
  intro a ha
  simp only [Function.comp_apply]
  exact hcc a

/-- C2: a race block with at least two runners at popularity 1 or 2 is
vetoed outright: `evaluate` returns the C-rank card with the
strong-field reason, empty horse name and empty tags, with no scoring
fields filled in. -/
theorem C2_strong_field_veto (block : Keiba.RaceBlock)
    (h : 2 ≤ Keiba.top12Count block.runners) :
    Keiba.evaluate block =
      { rank := Keiba.Rank.C, trackName := block.trackName,
        raceNo := block.raceNo, horseName := [], placeRangeText := [],
        tags := [], reason := some Keiba.strongReason } := by
  simp only [Keiba.evaluate]
  rw [if_pos h]

/-- Witness for C2 at a concrete two-favorite block. -/
theorem C2_strong_field_veto_witness :
    Keiba.evaluate { raceNo := 1, runners := [
        { rawLine := [], winPopularity := some 1 },
        { rawLine := [], winPopularity := some 2 }] } =
      { rank := Keiba.Rank.C, trackName := none, raceNo := 1,
        horseName := [], placeRangeText := [], tags := [],
        reason := some Keiba.strongReason } :=
  C2_strong_field_veto _ (by decide)

/-- C3: for a scored pick the rank comes from the fixed thresholds — S
iff the operative lower bound is at least 3.0, A iff it is in
[2.2, 3.0), B otherwise — and the rank `evaluate` assigns is exactly
`rankFromPlaceLow` of the pick's operative lower bound, the same
function the correction path applies to a freshly extracted range. -/
theorem C3_rank_thresholds (block : Keiba.RaceBlock)
    (h1 : Keiba.top12Count block.runners < 2)
    (h2 : Keiba.midCandidates block.runners ≠ []) :
    (Keiba.evaluate block).rank =
      Keiba.rankFromPlaceLow ((Keiba.evaluate block).placeLow.getD ⟨0, 0⟩)
    ∧ (∀ lo : Dec,
        (Keiba.rankFromPlaceLow lo = Keiba.Rank.S ↔ (3 : ℚ) ≤ lo.toRat)
        ∧ (Keiba.rankFromPlaceLow lo = Keiba.Rank.A ↔
            (2.2 : ℚ) ≤ lo.toRat ∧ lo.toRat < 3)
        ∧ (Keiba.rankFromPlaceLow lo = Keiba.Rank.B ↔ lo.toRat < 2.2)) := by
  constructor
  · simp only [Keiba.evaluate]
    rw [if_neg (by omega), if_neg (by simpa [List.isEmpty_iff] using h2)]
    rfl
  · intro lo
    have h30 : (Dec.mk 30 1).toRat = (3 : ℚ) := by norm_num [Dec.toRat]
    have h22 : (Dec.mk 22 1).toRat = (2.2 : ℚ) := by norm_num [Dec.toRat]
    unfold Keiba.rankFromPlaceLow
    split_ifs with hS hA
    · rw [Dec.ble_iff, h30] at hS
      refine ⟨⟨fun _ => hS, fun _ => rfl⟩, ⟨?_, ?_⟩, ⟨?_, ?_⟩⟩
      · intro hc; exact absurd hc (by decide)
      · intro ⟨_, hlt⟩; linarith
      · intro hc; exact absurd hc (by decide)
      · intro hlt; linarith
    · rw [Dec.ble_iff, h30] at hS
      rw [Dec.ble_iff, h22] at hA
      push_neg at hS
      refine ⟨⟨?_, ?_⟩, ⟨fun _ => ⟨hA, hS⟩, fun _ => rfl⟩, ⟨?_, ?_⟩⟩
      · intro hc; exact absurd hc (by decide)
      · intro hge; linarith
      · intro hc; exact absurd hc (by decide)
      · intro hlt; linarith
    · rw [Dec.ble_iff, h30] at hS
      rw [Dec.ble_iff, h22] at hA
      push_neg at hS hA
      refine ⟨⟨?_, ?_⟩, ⟨?_, ?_⟩, fun _ => hA, fun _ => rfl⟩
      · intro hc; exact absurd hc (by decide)
      · intro hge; linarith
      · intro hc; exact absurd hc (by decide)
      · intro ⟨hge, _⟩; linarith

/-- Witness for C3 at a concrete one-candidate block with a measured
place range. -/
theorem C3_rank_thresholds_witness :
    (Keiba.evaluate { raceNo := 1, runners := [
        { rawLine := [], winPopularity := some 5,
          placeLow := some ⟨25, 1⟩ }] }).rank =
      Keiba.rankFromPlaceLow ((Keiba.evaluate { raceNo := 1, runners := [
        { rawLine := [], winPopularity := some 5,
          placeLow := some ⟨25, 1⟩ }] }).placeLow.getD ⟨0, 0⟩) :=
  (C3_rank_thresholds _ (by decide) (by decide)).1

/-- C7 counterexample: a race whose only runners are the 1st and 2nd
favorites has no runner with popularity in [4, 8], yet `evaluate`
returns the strong-field reason, not the no-mid-tier reason — the
strong-field veto is checked first, so the claim's reason string is
wrong on such blocks. -/
theorem C7_no_mid_tier_counterexample :
    (∀ r ∈ ({ raceNo := 1, runners := [
        { rawLine := [], winPopularity := some 1 },
        { rawLine := [], winPopularity := some 2 }] } :
          Keiba.RaceBlock).runners,
      ¬(4 ≤ r.winPopularity.getD 99 ∧ r.winPopularity.getD 99 ≤ 8))
    ∧ (Keiba.evaluate { raceNo := 1, runners := [
        { rawLine := [], winPopularity := some 1 },
        { rawLine := [], winPopularity := some 2 }] }).rank = Keiba.Rank.C
    ∧ (Keiba.evaluate { raceNo := 1, runners := [
        { rawLine := [], winPopularity := some 1 },
        { rawLine := [], winPopularity := some 2 }] }).reason ≠
        some Keiba.noMidReason := by decide

/-- C7 (amended): when the strong-field veto does not fire and no runner
has popularity in [4, 8] (absent popularity counted as 99), `evaluate`
returns the C-rank card with the no-mid-tier-candidate reason. -/
theorem C7_no_mid_tier_amended (block : Keiba.RaceBlock)
    (h1 : Keiba.top12Count block.runners < 2)
    (h2 : ∀ r ∈ block.runners,
      ¬(4 ≤ r.winPopularity.getD 99 ∧ r.winPopularity.getD 99 ≤ 8)) :
    Keiba.evaluate block =
      { rank := Keiba.Rank.C, trackName := block.trackName,
        raceNo := block.raceNo, horseName := [], placeRangeText := [],
        tags := [], reason := some Keiba.noMidReason } := by
  have hc : Keiba.midCandidates block.runners = [] := by
    unfold Keiba.midCandidates
    rw [List.filter_eq_nil_iff]
    intro r hr
    have hp := h2 r hr
    simp only [Keiba.MID_POP_MIN, Keiba.MID_POP_MAX, Bool.and_eq_true,
      decide_eq_true_eq, not_and, not_le]
    omega
  simp only [Keiba.evaluate]
  rw [if_neg (by omega), if_pos (by simp [hc])]

/-- Witness for C7 (amended) at a concrete block whose single runner is
the 3rd favorite. -/
theorem C7_no_mid_tier_amended_witness :
    Keiba.evaluate { raceNo := 2, runners := [
        { rawLine := [], winPopularity := some 3 }] } =
      { rank := Keiba.Rank.C, trackName := none, raceNo := 2,
        horseName := [], placeRangeText := [], tags := [],
        reason := some Keiba.noMidReason } :=
  C7_no_mid_tier_amended _ (by decide) (by decide)

/-- C5: when the pasted text stored for a card yields no extractable
numeric range "a-b" (searched on the first line containing the pick's
horse name, or the whole normalized text when no line matches),
`applyUpdate` reports failure and leaves the whole state — the main card
list, the correction worklist and the stored inputs — unchanged. -/
theorem C5_correction_failure_preserves_state (st : Keiba.AppState)
    (card : Keiba.PickCard)
    (h : (Keiba.extractOddsFromPastedText
        (Keiba.lookupInput st.updateInputs (Keiba.getCardKey card))
        card.horseName).placeRangeRaw = none) :
    Keiba.applyUpdate st card = (st, false) := by
  unfold Keiba.applyUpdate
  dsimp only
  split_ifs with ht
  · rfl
  · simp only [h]

/-- Witness for C5: pasted text with no numeric range leaves a concrete
one-card state untouched. -/
theorem C5_correction_failure_preserves_state_witness :
    Keiba.applyUpdate
      { cards := [{ rank := Keiba.Rank.A
                    trackName := some (str "中山")
                    raceNo := 7
                    horseName := str "ホース"
                    placeRangeText := str "2.2–3.4"
                    placeLow := some ⟨22, 1⟩
                    tags := [str "中穴(5人気)"] }]
        updateTargets := [{ rank := Keiba.Rank.A
                            trackName := some (str "中山")
                            raceNo := 7
                            horseName := str "ホース"
                            placeRangeText := str "2.2–3.4"
                            placeLow := some ⟨22, 1⟩
                            tags := [str "中穴(5人気)"] }]
        updateInputs := [(str "中山" ++ [cp '_'] ++ str "7" ++ [cp '_']
                            ++ str "ホース", str "レンジなしのテキスト")] }
      { rank := Keiba.Rank.A
        trackName := some (str "中山")
        raceNo := 7
        horseName := str "ホース"
        placeRangeText := str "2.2–3.4"
        placeLow := some ⟨22, 1⟩
        tags := [str "中穴(5人気)"] } =
    ({ cards := [{ rank := Keiba.Rank.A
                   trackName := some (str "中山")
                   raceNo := 7
                   horseName := str "ホース"
                   placeRangeText := str "2.2–3.4"
                   placeLow := some ⟨22, 1⟩
                   tags := [str "中穴(5人気)"] }]
       updateTargets := [{ rank := Keiba.Rank.A
                           trackName := some (str "中山")
                           raceNo := 7
                           horseName := str "ホース"
                           placeRangeText := str "2.2–3.4"
                           placeLow := some ⟨22, 1⟩
                           tags := [str "中穴(5人気)"] }]
       updateInputs := [(str "中山" ++ [cp '_'] ++ str "7" ++ [cp '_']
                           ++ str "ホース", str "レンジなしのテキスト")] }, false) :=
  C5_correction_failure_preserves_state _ _ (by decide)

/-- In a list with at least one element satisfying `p`, replacing every
`p`-element by `mid` (itself satisfying `p`) makes `find? p` return
`mid`. -/
theorem find?_map_replace {p : Str → Bool} {mid : Str} (hm : p mid = true) :
    ∀ {l : List Str}, l.any p = true →
      (l.map (fun t => if p t then mid else t)).find? p = some mid := by
  intro l
  induction l with
  | nil => intro h; simp at h
  | cons h t ih =>
    intro ha
    by_cases hp : p h = true
    · simp only [List.map_cons, if_pos hp]
      rw [List.find?_cons_of_pos _ hm]
    · simp only [List.map_cons, if_neg hp]
      rw [List.find?_cons_of_neg _ (by simpa using hp)]
      apply ih
      simp only [List.any_cons, Bool.or_eq_true] at ha
      rcases ha with ha | ha
      · exact absurd ha hp
      · exact ha

/-- Replacing `p`-elements with `mid` does not change the number of
occurrences of a value `v` that neither satisfies `p` nor equals
`mid`. -/
theorem count_map_replace {p : Str → Bool} {mid v : Str}
    (hmv : mid ≠ v) (hpv : p v = false) :
    ∀ l : List Str, (l.map (fun t => if p t then mid else t)).count v = l.count v := by
  intro l
  induction l with
  | nil => rfl
  | cons h t ih =>
    by_cases hp : p h = true
    · simp only [List.map_cons, if_pos hp]
      rw [List.count_cons, List.count_cons, ih]
      have h1 : ¬(mid == v) = true := by simpa using hmv
      have h2 : ¬(h == v) = true := by
        intro hc
        rw [beq_iff_eq] at hc
        rw [hc] at hp
        rw [hp] at hpv
        exact Bool.noConfusion hpv
      simp [h1, h2]
    · simp only [List.map_cons, if_neg hp]
      rw [List.count_cons, List.count_cons, ih]

/-- Replacing `p`-elements with `mid` does not change membership of a
value `v` that neither satisfies `p` nor equals `mid`. -/
theorem mem_map_replace {p : Str → Bool} {mid v : Str}
    (hmv : mid ≠ v) (hpv : p v = false) (l : List Str) :
    v ∈ l.map (fun t => if p t then mid else t) ↔ v ∈ l := by
  induction l with
  | nil => simp
  | cons h t ih =>
    by_cases hp : p h = true
    · simp only [List.map_cons, if_pos hp, List.mem_cons, ih]
      constructor
      · rintro (hc | hc)
        · exact absurd hc.symm hmv
        · exact Or.inr hc
      · rintro (hc | hc)
        · rw [hc] at hpv
          rw [hp] at hpv
          exact Bool.noConfusion hpv
        · exact Or.inr hc
    · simp only [List.map_cons, if_neg hp, List.mem_cons, ih]

/-- Erasing an element that does not satisfy `p` does not change
`find? p`. -/
theorem find?_erase_of_neg {p : Str → Bool} {a : Str} (ha : p a = false) :
    ∀ l : List Str, (l.erase a).find? p = l.find? p := by
  intro l
  induction l with
  | nil => rfl
  | cons h t ih =>
    by_cases hb : h = a
    · subst hb
      rw [List.erase_cons_head]
      rw [List.find?_cons_of_neg _ (by simpa using ha)]
    · rw [List.erase_cons_tail (by simpa using hb)]
      by_cases hp : p h = true
      · rw [List.find?_cons_of_pos _ hp, List.find?_cons_of_pos _ hp]
      · rw [List.find?_cons_of_neg _ (by simpa using hp),
          List.find?_cons_of_neg _ (by simpa using hp), ih]

/-- C10 counterexample: when the prior tag list carries the value tag
twice, `splice` removes only the first occurrence, so the updated tags
still contain 妙味あり although the new placeLow 1.0 is below 2.2 — the
claimed "if and only if" fails. -/
theorem C10_updateTags_counterexample :
    Dec.lt (⟨10, 1⟩ : Dec) ⟨22, 1⟩
    ∧ Keiba.updateTags [str "妙味あり", str "妙味あり"] (some 5) ⟨10, 1⟩ =
        [str "中穴(5人気)", str "妙味あり"] := by decide

/-- C10 (amended): provided the prior tag list holds the value tag
妙味あり at most once (always true of the tag lists the scorer
produces), `updateTags` returns at most 3 tags whose head is the
mid-tier tag refreshed with the current popularity, contains 妙味あり
iff the new placeLow is at least 2.2, keeps 相手弱め exactly when it was
already present, and never contains 要更新. -/
theorem C10_updateTags_amended (prev : List Str) (pop : Option Nat) (lo : Dec)
    (hcount : prev.count (str "妙味あり") ≤ 1) :
    (Keiba.updateTags prev pop lo).length ≤ 3
    ∧ (Keiba.updateTags prev pop lo).head? = some (Keiba.midTagOf pop)
    ∧ (str "妙味あり" ∈ Keiba.updateTags prev pop lo ↔ (2.2 : ℚ) ≤ lo.toRat)
    ∧ (str "相手弱め" ∈ Keiba.updateTags prev pop lo ↔ str "相手弱め" ∈ prev)
    ∧ str "要更新" ∉ Keiba.updateTags prev pop lo := by
  have hpmid : ((str "中穴(").isPrefixOf (Keiba.midTagOf pop)) = true := by
    unfold Keiba.midTagOf
    rw [List.isPrefixOf_iff_prefix, List.append_assoc]
    exact List.prefix_append _ _
  have hmv : Keiba.midTagOf pop ≠ str "妙味あり" := by
    intro h
    rw [h] at hpmid
    exact absurd hpmid (by decide)
  have hmw : Keiba.midTagOf pop ≠ str "相手弱め" := by
    intro h
    rw [h] at hpmid
    exact absurd hpmid (by decide)
  have hmr : Keiba.midTagOf pop ≠ str "要更新" := by
    intro h
    rw [h] at hpmid
    exact absurd hpmid (by decide)
  have hq : ((2.2 : ℚ) ≤ lo.toRat) ↔ (Dec.ble ⟨22, 1⟩ lo = true) := by
    rw [Dec.ble_iff]
    have h22 : (Dec.mk 22 1).toRat = (2.2 : ℚ) := by norm_num [Dec.toRat]
    rw [h22]
  unfold Keiba.updateTags
  dsimp only
  have F1a : ((if !(prev.any (fun t => (str "中穴(").isPrefixOf t)) then Keiba.midTagOf pop :: prev
      else prev.map (fun t => if (str "中穴(").isPrefixOf t then Keiba.midTagOf pop else t))).find? (fun t => (str "中穴(").isPrefixOf t) = some (Keiba.midTagOf pop) := by
    by_cases hm : prev.any (fun t => (str "中穴(").isPrefixOf t) = true
    · rw [hm]
      simp only [Bool.not_true, Bool.false_eq_true, if_false]
      exact find?_map_replace hpmid hm
    · rw [Bool.not_eq_true] at hm
      rw [hm]
      simp only [Bool.not_false, if_true]
      exact List.find?_cons_of_pos _ hpmid
  have F1b : ((if !(prev.any (fun t => (str "中穴(").isPrefixOf t)) then Keiba.midTagOf pop :: prev
      else prev.map (fun t => if (str "中穴(").isPrefixOf t then Keiba.midTagOf pop else t))).count (str "妙味あり") = prev.count (str "妙味あり") := by
    by_cases hm : prev.any (fun t => (str "中穴(").isPrefixOf t) = true
    · rw [hm]
      simp only [Bool.not_true, Bool.false_eq_true, if_false]
      exact count_map_replace hmv (by decide) prev
    · rw [Bool.not_eq_true] at hm
      rw [hm]
      simp only [Bool.not_false, if_true, List.count_cons]
      have hne : ¬((Keiba.midTagOf pop) == (str "妙味あり")) = true := by simpa using hmv
      simp [hne]
  have F1c : (str "相手弱め") ∈ ((if !(prev.any (fun t => (str "中穴(").isPrefixOf t)) then Keiba.midTagOf pop :: prev
      else prev.map (fun t => if (str "中穴(").isPrefixOf t then Keiba.midTagOf pop else t))) ↔ (str "相手弱め") ∈ prev := by
    by_cases hm : prev.any (fun t => (str "中穴(").isPrefixOf t) = true
    · rw [hm]
      simp only [Bool.not_true, Bool.false_eq_true, if_false]
      exact mem_map_replace hmw (by decide) prev
    · rw [Bool.not_eq_true] at hm
      rw [hm]
      simp only [Bool.not_false, if_true, List.mem_cons]
      constructor
      · rintro (h | h)
        · exact absurd h.symm hmw
        · exact h
      · exact fun h => Or.inr h
  generalize hT1 : (if !(prev.any (fun t => (str "中穴(").isPrefixOf t)) then Keiba.midTagOf pop :: prev
      else prev.map (fun t => if (str "中穴(").isPrefixOf t then Keiba.midTagOf pop else t)) = T1 at F1a F1b F1c ⊢
  have F2a : ((if Dec.ble ⟨22, 1⟩ lo then
      (if !T1.contains (str "妙味あり") then T1 ++ [str "妙味あり"] else T1)
    else T1.erase (str "妙味あり"))).find? (fun t => (str "中穴(").isPrefixOf t) = some (Keiba.midTagOf pop) := by
    split_ifs with hlo hv
    · rw [List.find?_append, F1a]
      rfl
    · exact F1a
    · rw [find?_erase_of_neg (by decide), F1a]
  have F2b : (str "妙味あり") ∈ ((if Dec.ble ⟨22, 1⟩ lo then
      (if !T1.contains (str "妙味あり") then T1 ++ [str "妙味あり"] else T1)
    else T1.erase (str "妙味あり"))) ↔ Dec.ble ⟨22, 1⟩ lo = true := by
    split_ifs with hlo hv
    · simp [hlo]
    · rw [Bool.not_eq_true, Bool.not_eq_eq_eq_not, Bool.not_false] at hv
      simp only [hlo, iff_true]
      simpa using hv
    · have hz : (T1.erase (str "妙味あり")).count (str "妙味あり") = 0 := by
        rw [List.count_erase_self, F1b]
        omega
      have hnm : (str "妙味あり") ∉ T1.erase (str "妙味あり") := List.count_eq_zero.mp hz
      constructor
      · intro hc
        exact absurd hc hnm
      · intro hc
        exact absurd hc hlo
  have F2c : (str "相手弱め") ∈ ((if Dec.ble ⟨22, 1⟩ lo then
      (if !T1.contains (str "妙味あり") then T1 ++ [str "妙味あり"] else T1)
    else T1.erase (str "妙味あり"))) ↔ (str "相手弱め") ∈ prev := by
    split_ifs with hlo hv
    · rw [List.mem_append, or_iff_left (by decide)]
      exact F1c
    · exact F1c
    · rw [List.mem_erase_of_ne (by decide)]
      exact F1c
  generalize hT2 : (if Dec.ble ⟨22, 1⟩ lo then
      (if !T1.contains (str "妙味あり") then T1 ++ [str "妙味あり"] else T1)
    else T1.erase (str "妙味あり")) = T2 at F2a F2b F2c ⊢
  rw [F2a]
  by_cases hv2 : T2.contains (str "妙味あり") = true <;>
    by_cases hw2 : T2.contains (str "相手弱め") = true
  · -- value tag present, weak tag present
    rw [hv2, hw2]
    simp only [if_true, List.singleton_append, List.nil_append,
      List.append_nil, List.cons_append]
    have hvm : (str "妙味あり") ∈ T2 := by simpa using hv2
    have hwm : (str "相手弱め") ∈ T2 := by simpa using hw2
    rw [List.take_of_length_le (by simp)]
    refine ⟨by simp, rfl, ?_, ?_, ?_⟩
    · exact iff_of_true (by simp) (hq.mpr (F2b.mp hvm))
    · exact iff_of_true (by simp) (F2c.mp hwm)
    · intro hc
      simp only [List.mem_cons, List.not_mem_nil, or_false] at hc
      rcases hc with hc | hc | hc
      · exact hmr hc.symm
      · exact absurd hc (by decide)
      · exact absurd hc (by decide)
  · -- value tag present, weak tag absent
    rw [Bool.not_eq_true] at hw2
    rw [hv2, hw2]
    simp only [if_true, Bool.false_eq_true, if_false,
      List.singleton_append, List.nil_append, List.append_nil,
      List.cons_append]
    have hvm : (str "妙味あり") ∈ T2 := by simpa using hv2
    have hwm : (str "相手弱め") ∉ T2 := by simpa using hw2
    rw [List.take_of_length_le (by simp)]
    refine ⟨by simp, rfl, ?_, ?_, ?_⟩
    · exact iff_of_true (by simp) (hq.mpr (F2b.mp hvm))
    · refine iff_of_false ?_ (fun hc => hwm (F2c.mpr hc))
      intro hc
      simp only [List.mem_cons, List.not_mem_nil, or_false] at hc
      rcases hc with hc | hc
      · exact hmw hc.symm
      · exact absurd hc (by decide)
    · intro hc
      simp only [List.mem_cons, List.not_mem_nil, or_false] at hc
      rcases hc with hc | hc
      · exact hmr hc.symm
      · exact absurd hc (by decide)
  · -- value tag absent, weak tag present
    rw [Bool.not_eq_true] at hv2
    rw [hv2, hw2]
    simp only [if_true, Bool.false_eq_true, if_false,
      List.singleton_append, List.nil_append, List.append_nil,
      List.cons_append]
    have hvm : (str "妙味あり") ∉ T2 := by simpa using hv2
    have hwm : (str "相手弱め") ∈ T2 := by simpa using hw2
    rw [List.take_of_length_le (by simp)]
    refine ⟨by simp, rfl, ?_, ?_, ?_⟩
    · refine iff_of_false ?_ (fun hc => hvm (F2b.mpr (hq.mp hc)))
      intro hc
      simp only [List.mem_cons, List.not_mem_nil, or_false] at hc
      rcases hc with hc | hc
      · exact hmv hc.symm
      · exact absurd hc (by decide)
    · exact iff_of_true (by simp) (F2c.mp hwm)
    · intro hc
      simp only [List.mem_cons, List.not_mem_nil, or_false] at hc
      rcases hc with hc | hc
      · exact hmr hc.symm
      · exact absurd hc (by decide)
  · -- both absent
    rw [Bool.not_eq_true] at hv2 hw2
    rw [hv2, hw2]
    simp only [Bool.false_eq_true, if_false, List.singleton_append,
      List.nil_append, List.append_nil, List.cons_append]
    have hvm : (str "妙味あり") ∉ T2 := by simpa using hv2
    have hwm : (str "相手弱め") ∉ T2 := by simpa using hw2
    rw [List.take_of_length_le (by simp)]
    refine ⟨by simp, rfl, ?_, ?_, ?_⟩
    · refine iff_of_false ?_ (fun hc => hvm (F2b.mpr (hq.mp hc)))
      intro hc
      simp only [List.mem_cons, List.not_mem_nil, or_false] at hc
      exact hmv hc.symm
    · refine iff_of_false ?_ (fun hc => hwm (F2c.mpr hc))
      intro hc
      simp only [List.mem_cons, List.not_mem_nil, or_false] at hc
      exact hmw hc.symm
    · intro hc
      simp only [List.mem_cons, List.not_mem_nil, or_false] at hc
      exact hmr hc.symm

/-- Witness for C10 (amended) at a concrete tag list carrying the
estimated flag 要更新 and a correction placeLow of 2.5. -/
theorem C10_updateTags_amended_witness :
    (Keiba.updateTags [str "中穴(4人気)", str "要更新"] (some 6) ⟨25, 1⟩).length ≤ 3
    ∧ (Keiba.updateTags [str "中穴(4人気)", str "要更新"] (some 6) ⟨25, 1⟩).head? =
        some (Keiba.midTagOf (some 6))
    ∧ (str "妙味あり" ∈ Keiba.updateTags [str "中穴(4人気)", str "要更新"] (some 6) ⟨25, 1⟩ ↔
        (2.2 : ℚ) ≤ (Dec.mk 25 1).toRat)
    ∧ (str "相手弱め" ∈ Keiba.updateTags [str "中穴(4人気)", str "要更新"] (some 6) ⟨25, 1⟩ ↔
        str "相手弱め" ∈ [str "中穴(4人気)", str "要更新"])
    ∧ str "要更新" ∉ Keiba.updateTags [str "中穴(4人気)", str "要更新"] (some 6) ⟨25, 1⟩ :=
  C10_updateTags_amended [str "中穴(4人気)", str "要更新"] (some 6) ⟨25, 1⟩ (by decide)

namespace Keiba

theorem lexLeB_trans : ∀ {a b c : Str}, lexLeB a b = true →
    lexLeB b c = true → lexLeB a c = true := by
  intro a
  induction a with
  | nil => intro b c _ _; rfl
  | cons x xs ih =>
    intro b c h1 h2
    cases b with
    | nil => simp [lexLeB] at h1
    | cons y ys =>
      cases c with
      | nil => simp [lexLeB] at h2
      | cons z zs =>
        simp only [lexLeB] at h1 h2 ⊢
        by_cases hxy : x < y
        · by_cases hyz : y < z
          · rw [if_pos (lt_trans hxy hyz)]
          · by_cases hzy : z < y
            · rw [if_neg hyz, if_pos hzy] at h2
              exact absurd h2 (by decide)
            · have he : y = z := le_antisymm (not_lt.mp hzy) (not_lt.mp hyz)
              rw [if_pos (he ▸ hxy)]
        · by_cases hyx : y < x
          · rw [if_neg hxy, if_pos hyx] at h1
            exact absurd h1 (by decide)
          · have he : x = y := le_antisymm (not_lt.mp hyx) (not_lt.mp hxy)
            rw [if_neg hxy, if_neg hyx] at h1
            subst he
            by_cases hxz : x < z
            · rw [if_pos hxz]
            · by_cases hzx : z < x
              · rw [if_neg hxz, if_pos hzx] at h2
                exact absurd h2 (by decide)
              · have he2 : x = z := le_antisymm (not_lt.mp hzx) (not_lt.mp hxz)
                subst he2
                rw [if_neg hxz, if_neg hxz] at h2 ⊢
                exact ih h1 h2

theorem lexLeB_total : ∀ a b : Str, lexLeB a b = true ∨ lexLeB b a = true := by
  intro a
  induction a with
  | nil => intro b; exact Or.inl rfl
  | cons x xs ih =>
    intro b
    cases b with
    | nil => exact Or.inr rfl
    | cons y ys =>
      simp only [lexLeB]
      by_cases hxy : x < y
      · exact Or.inl (by rw [if_pos hxy])
      · by_cases hyx : y < x
        · exact Or.inr (by rw [if_pos hyx])
        · have he : x = y := le_antisymm (not_lt.mp hyx) (not_lt.mp hxy)
          subst he
          simp only [lt_self_iff_false, if_false]
          exact ih ys

theorem rankKey_inj {r₁ r₂ : Rank} (h : rankKey r₁ = rankKey r₂) : r₁ = r₂ := by
  cases r₁ <;> cases r₂ <;> simp_all [rankKey]

theorem cardLe_iff {a b : PickCard} :
    cardLe a b ↔ rankKey a.rank < rankKey b.rank
      ∨ (rankKey a.rank = rankKey b.rank
          ∧ ((cardLo b).toRat < (cardLo a).toRat
            ∨ ((cardLo a).toRat = (cardLo b).toRat
                ∧ lexLeB (cardSortText a) (cardSortText b) = true))) := by
  unfold cardLe cardLeB
  by_cases hk : rankKey a.rank = rankKey b.rank
  · rw [if_pos (by simpa using hk)]
    cases hb : Dec.bveq (cardLo a) (cardLo b) with
    | false =>
      rw [if_neg (by simp [hb])]
      rw [Dec.blt_iff]
      have hne : ¬(cardLo a).toRat = (cardLo b).toRat := by
        intro hc
        rw [← Dec.bveq_iff] at hc
        rw [hb] at hc
        exact Bool.noConfusion hc
      constructor
      · exact fun h => Or.inr ⟨hk, Or.inl h⟩
      · rintro (h | ⟨_, h | ⟨he, _⟩⟩)
        · omega
        · exact h
        · exact absurd he hne
    | true =>
      rw [if_pos (by simp [hb])]
      have he : (cardLo a).toRat = (cardLo b).toRat := Dec.bveq_iff.mp hb
      constructor
      · exact fun h => Or.inr ⟨hk, Or.inr ⟨he, h⟩⟩
      · rintro (h | ⟨_, h | ⟨_, h⟩⟩)
        · omega
        · rw [he] at h
          exact absurd h (lt_irrefl _)
        · exact h
  · rw [if_neg (by simpa using hk)]
    rw [decide_eq_true_iff]
    constructor
    · exact fun h => Or.inl h
    · rintro (h | ⟨he, _⟩)
      · exact h
      · exact absurd he hk

instance : IsTotal PickCard cardLe := ⟨by
  intro a b
  rw [cardLe_iff, cardLe_iff]
  rcases Nat.lt_trichotomy (rankKey a.rank) (rankKey b.rank) with h | h | h
  · exact Or.inl (Or.inl h)
  · rcases lt_trichotomy ((cardLo a).toRat) ((cardLo b).toRat) with h' | h' | h'
    · exact Or.inr (Or.inr ⟨h.symm, Or.inl h'⟩)
    · rcases lexLeB_total (cardSortText a) (cardSortText b) with hl | hl
      · exact Or.inl (Or.inr ⟨h, Or.inr ⟨h', hl⟩⟩)
      · exact Or.inr (Or.inr ⟨h.symm, Or.inr ⟨h'.symm, hl⟩⟩)
    · exact Or.inl (Or.inr ⟨h, Or.inl h'⟩)
  · exact Or.inr (Or.inl h)⟩

instance : IsTrans PickCard cardLe := ⟨by
  intro a b c h1 h2
  rw [cardLe_iff] at h1 h2 ⊢
  rcases h1 with h1 | ⟨e1, h1'⟩ <;> rcases h2 with h2 | ⟨e2, h2'⟩
  · exact Or.inl (by omega)
  · exact Or.inl (by omega)
  · exact Or.inl (by omega)
  · refine Or.inr ⟨by omega, ?_⟩
    rcases h1' with l1 | ⟨q1, x1⟩ <;> rcases h2' with l2 | ⟨q2, x2⟩
    · exact Or.inl (by linarith)
    · exact Or.inl (by linarith [q2.le, q2.ge])
    · exact Or.inl (by linarith [q1.le, q1.ge])
    · exact Or.inr ⟨q1.trans q2, lexLeB_trans x1 x2⟩⟩

end Keiba

/-- C4: `recommendedSorted` returns exactly the S- and A-ranked cards
(as a permutation of the filter, every returned card ranked S or A), in
an order where rank keys never decrease (so every S card precedes every
A card) and, within equal ranks, `placeLow ?? -1` never increases, with
ties on both broken by ascending lexicographic order of the
venue-plus-race string; as a Lean function it is pure and
deterministic by construction. -/
theorem C4_recommendedSorted_spec (cards : List Keiba.PickCard) :
    (Keiba.recommendedSorted cards).Perm
      (cards.filter fun c => c.rank == Keiba.Rank.S || c.rank == Keiba.Rank.A)
    ∧ (∀ c ∈ Keiba.recommendedSorted cards,
        c.rank = Keiba.Rank.S ∨ c.rank = Keiba.Rank.A)
    ∧ (Keiba.recommendedSorted cards).Pairwise (fun a b =>
        Keiba.rankKey a.rank < Keiba.rankKey b.rank
        ∨ (a.rank = b.rank
            ∧ ((Keiba.cardLo b).toRat < (Keiba.cardLo a).toRat
              ∨ ((Keiba.cardLo a).toRat = (Keiba.cardLo b).toRat
                  ∧ Keiba.lexLeB (Keiba.cardSortText a)
                      (Keiba.cardSortText b) = true)))) := by
  refine ⟨?_, ?_, ?_⟩
  · exact List.perm_insertionSort _ _
  · intro c hc
    have hm : c ∈ cards.filter
        (fun c => c.rank == Keiba.Rank.S || c.rank == Keiba.Rank.A) :=
      (List.perm_insertionSort Keiba.cardLe _).mem_iff.mp hc
    have := (List.mem_filter.mp hm).2
    simp only [Bool.or_eq_true, beq_iff_eq] at this
    exact this
  · have hs := List.sorted_insertionSort Keiba.cardLe
      (cards.filter fun c => c.rank == Keiba.Rank.S || c.rank == Keiba.Rank.A)
    refine List.Pairwise.imp ?_ hs
    intro a b hab
    rcases Keiba.cardLe_iff.mp hab with h | ⟨he, h⟩
    · exact Or.inl h
    · exact Or.inr ⟨Keiba.rankKey_inj he, h⟩

/-- C1: in the estimating evaluator, past the strong-field veto and with
at least one mid-tier candidate, each candidate's operative place-odds
lower bound is the measured placeLow when present, otherwise the
win-odds estimate clamp(1.2, 6.0, 1.2 + 0.25 × winOdds) rounded to one
decimal (ties up), otherwise −1; the pick is a candidate whose bound is
maximal, with ties broken by ascending popularity rank. -/
theorem C1_estimating_pick_optimal (block : Keiba.RaceBlock)
    (h1 : Keiba.top12Count block.runners < 2)
    (h2 : Keiba.midCandidates block.runners ≠ []) :
    (∀ r : Keiba.RunnerParsed, ∀ v, r.placeLow = some v →
        Keiba.Part001.loFor r = v)
    ∧ (∀ (r : Keiba.RunnerParsed) (w : Dec), r.placeLow = none →
        r.winOdds = some w → (Keiba.Part001.loFor r).toRat =
          ((⌊(max (1.2 : ℚ) (min 6 (1.2 + 0.25 * w.toRat))) * 10 + 1 / 2⌋ : ℤ) : ℚ) / 10)
    ∧ (∀ r : Keiba.RunnerParsed, r.placeLow = none → r.winOdds = none →
        (Keiba.Part001.loFor r).toRat = -1)
    ∧ ∃ best, best ∈ Keiba.midCandidates block.runners
        ∧ (Keiba.Part001.evaluate block).horseName
            = best.horseName.getD (str "（馬名不明）")
        ∧ (Keiba.Part001.evaluate block).placeLow
            = some (Keiba.Part001.loFor best)
        ∧ ∀ c ∈ Keiba.midCandidates block.runners,
            (Keiba.Part001.loFor c).toRat < (Keiba.Part001.loFor best).toRat
            ∨ ((Keiba.Part001.loFor c).toRat = (Keiba.Part001.loFor best).toRat
                ∧ Keiba.popD best ≤ Keiba.popD c) := by
  refine ⟨?_, ?_, ?_, ?_⟩
  · intro r v hv
    unfold Keiba.Part001.loFor
    rw [hv]
    rfl
  · intro r w hpl hwo
    unfold Keiba.Part001.loFor
    rw [hpl, hwo]
    unfold Keiba.Part001.estimatePlaceLowFromWinOdds
    dsimp only [Option.getD]
    have h12 : (Dec.mk 12 1).toRat = (1.2 : ℚ) := by norm_num [Dec.toRat]
    have h60 : (Dec.mk 60 1).toRat = (6 : ℚ) := by norm_num [Dec.toRat]
    have h25 : (Dec.mk 25 2).toRat = (0.25 : ℚ) := by norm_num [Dec.toRat]
    have h10 : (Dec.mk 10 0).toRat = (10 : ℚ) := by norm_num [Dec.toRat]
    have hcl : (Dec.maxD ⟨12, 1⟩ (Dec.minD ⟨60, 1⟩
        (Dec.add ⟨12, 1⟩ (Dec.mul w ⟨25, 2⟩)))).toRat
        = max (1.2 : ℚ) (min 6 (1.2 + 0.25 * w.toRat)) := by
      rw [Dec.toRat_maxD, Dec.toRat_minD, Dec.toRat_add, Dec.toRat_mul,
        h12, h60, h25]
      ring_nf
    have hz : ∀ z : ℤ, (Dec.mk z 1).toRat = (z : ℚ) / 10 := by
      intro z
      norm_num [Dec.toRat]
    rw [hz, Dec.roundHalf_eq, Dec.toRat_mul, hcl, h10]
  · intro r hpl hwo
    unfold Keiba.Part001.loFor
    rw [hpl, hwo]
    norm_num [Keiba.Part001.estimatePlaceLowFromWinOdds, Dec.toRat]
  · obtain ⟨c0, cs, hcc⟩ : ∃ x xs, Keiba.midCandidates block.runners = x :: xs := by
      cases hc : Keiba.midCandidates block.runners with
      | nil => exact absurd hc h2
      | cons x xs => exact ⟨x, xs, rfl⟩
    obtain ⟨t, ts, hs⟩ : ∃ t ts,
        List.insertionSort Keiba.Part001.scoredLe
          ((Keiba.midCandidates block.runners).map
            (fun r => (r, Keiba.Part001.loFor r, r.placeLow.isNone)))
          = t :: ts := by
      have hlen : 0 < (List.insertionSort Keiba.Part001.scoredLe
          ((Keiba.midCandidates block.runners).map
            (fun r => (r, Keiba.Part001.loFor r, r.placeLow.isNone)))).length := by
        rw [(List.perm_insertionSort _ _).length_eq]
        simp [hcc]
      cases hq : List.insertionSort Keiba.Part001.scoredLe
          ((Keiba.midCandidates block.runners).map
            (fun r => (r, Keiba.Part001.loFor r, r.placeLow.isNone))) with
      | nil => rw [hq] at hlen; simp at hlen
      | cons a b => exact ⟨a, b, rfl⟩
    have hH : (Keiba.Part001.evaluate block).horseName
        = t.1.horseName.getD (str "（馬名不明）") := by
      simp only [Keiba.Part001.evaluate]
      rw [if_neg (by omega), if_neg (by simpa [List.isEmpty_iff] using h2)]
      rw [hs]
      rfl
    have hP : (Keiba.Part001.evaluate block).placeLow = some t.2.1 := by
      simp only [Keiba.Part001.evaluate]
      rw [if_neg (by omega), if_neg (by simpa [List.isEmpty_iff] using h2)]
      rw [hs]
      rfl
    have htm : t ∈ (Keiba.midCandidates block.runners).map
        (fun r => (r, Keiba.Part001.loFor r, r.placeLow.isNone)) := by
      have hmem : t ∈ List.insertionSort Keiba.Part001.scoredLe
          ((Keiba.midCandidates block.runners).map
            (fun r => (r, Keiba.Part001.loFor r, r.placeLow.isNone))) := by
        rw [hs]
        exact List.mem_cons_self _ _
      exact (List.perm_insertionSort _ _).mem_iff.mp hmem
    obtain ⟨best, hbest, hbt⟩ := List.mem_map.mp htm
    refine ⟨best, hbest, ?_, ?_, ?_⟩
    · rw [hH, ← hbt]
    · rw [hP, ← hbt]
    · intro c hc
      have hcm : (c, Keiba.Part001.loFor c, c.placeLow.isNone) ∈
          List.insertionSort Keiba.Part001.scoredLe
            ((Keiba.midCandidates block.runners).map
              (fun r => (r, Keiba.Part001.loFor r, r.placeLow.isNone))) :=
        (List.perm_insertionSort _ _).mem_iff.mpr
          (List.mem_map_of_mem _ hc)
      rw [hs] at hcm
      rcases List.mem_cons.mp hcm with hct | hct
      · have hcb : c = best := by
          have h' := congrArg Prod.fst hct
          rw [← hbt] at h'
          exact h'
        have heq : Keiba.Part001.loFor c = t.2.1 :=
          congrArg (fun x => x.2.1) hct
        rw [← hbt] at heq
        refine Or.inr ⟨congrArg Dec.toRat heq, ?_⟩
        rw [hcb]
      · have hsorted := List.sorted_insertionSort Keiba.Part001.scoredLe
          ((Keiba.midCandidates block.runners).map
            (fun r => (r, Keiba.Part001.loFor r, r.placeLow.isNone)))
        rw [hs] at hsorted
        have hrel := (List.pairwise_cons.mp hsorted).1 _ hct
        have hx := Keiba.Part001.scoredLe_iff.mp hrel
        rw [← hbt] at hx
        simp only [Keiba.Part001.sLoRat] at hx
        rcases hx with hx | ⟨hx, hp⟩
        · exact Or.inl hx
        · exact Or.inr ⟨hx.symm, hp⟩

/-- Witness for C1: the theorem applied to a concrete one-candidate
block; its first conjunct instantiated at a runner with a measured
placeLow of 2.5. -/
theorem C1_estimating_pick_optimal_witness :
    Keiba.Part001.loFor { rawLine := [], winPopularity := some 6,
                          placeLow := some ⟨25, 1⟩ } = ⟨25, 1⟩ :=
  (C1_estimating_pick_optimal
    { raceNo := 3, runners := [{ rawLine := [], winPopularity := some 5,
                                 winOdds := some ⟨80, 1⟩ }] }
    (by decide) (by decide)).1 _ _ rfl

/-- Any line step either keeps the accumulated block list or flushes the
current block (the only two ways `parseLine` touches `blocks`). -/
theorem parseLine_blocks (st : Keiba.PState) (l : Str) :
    (Keiba.parseLine st l).blocks = st.blocks
    ∨ (Keiba.parseLine st l).blocks = (Keiba.flushState st).blocks := by
  unfold Keiba.parseLine Keiba.pendingOrIgnore
  repeat
    first
    | (left; rfl)
    | (right; rfl)
    | split
  all_goals
    dsimp only
    repeat
      first
      | (left; rfl)
      | (right; rfl)
      | split

/-- Flushing preserves the invariant that every accumulated block has at
least one runner: a block is pushed only when `currentRunners` is
non-empty. -/
theorem flushState_inv (st : Keiba.PState)
    (hst : ∀ b ∈ st.blocks, b.runners ≠ []) :
    ∀ b ∈ (Keiba.flushState st).blocks, b.runners ≠ [] := by
  intro b hb
  unfold Keiba.flushState at hb
  dsimp only at hb
  cases hn : st.currentRaceNo with
  | none =>
    rw [hn] at hb
    exact hst b hb
  | some n =>
    rw [hn] at hb
    simp only at hb
    by_cases he : st.currentRunners.isEmpty = true
    · rw [if_pos he] at hb
      exact hst b hb
    · rw [if_neg he] at hb
      rcases List.mem_append.mp hb with h | h
      · exact hst b h
      · rw [List.mem_singleton.mp h]
        simpa [List.isEmpty_iff] using he

/-- C6: `parseAll` — a total Lean function, so termination holds by
construction — only ever returns race blocks with at least one runner:
an empty trailing block is dropped by `flushState`. -/
theorem C6_parseAll_blocks_nonempty (text : Str) :
    ∀ b ∈ (Keiba.parseAll text).1, b.runners ≠ [] := by
  have hstep : ∀ st : Keiba.PState, (∀ b ∈ st.blocks, b.runners ≠ []) →
      ∀ l : Str, ∀ b ∈ (Keiba.parseLine st l).blocks, b.runners ≠ [] := by
    intro st hst l b hb
    rcases parseLine_blocks st l with h | h
    · rw [h] at hb
      exact hst b hb
    · rw [h] at hb
      exact flushState_inv st hst b hb
  have hfold : ∀ (ls : List Str) (st : Keiba.PState),
      (∀ b ∈ st.blocks, b.runners ≠ []) →
      ∀ b ∈ (ls.foldl Keiba.parseLine st).blocks, b.runners ≠ [] := by
    intro ls
    induction ls with
    | nil => intro st h; exact h
    | cons x xs ih =>
      intro st h
      exact ih _ (fun b hb => hstep st h x b hb)
  unfold Keiba.parseAll
  dsimp only
  exact flushState_inv _ (hfold _ Keiba.pstate0 (by intro b hb; simp [Keiba.pstate0] at hb))

/-- Witness for C6: the block parsed from a concrete two-line paste has
a non-empty runner list. -/
theorem C6_parseAll_blocks_nonempty_witness :
    ({ trackName := none
       raceNo := 7
       runners := [{ rawLine := str "2人気 2.2-3.4"
                     winPopularity := some 2
                     placeLow := some ⟨22, 1⟩
                     placeHigh := some ⟨34, 1⟩
                     placeRangeRaw := some (str "2.2-3.4") }] } :
      Keiba.RaceBlock).runners ≠ [] :=
  C6_parseAll_blocks_nonempty (str "7R\n2人気 2.2-3.4") _ (by decide)
